import Mathlib

/-!
# MultiThink and TaskDispatcher (src/learn/multi_think.h, src/learn/multi_think.cpp)

A shallow embedding of the worker-pool controller `MultiThink` and of the task
stack `TaskDispatcher`.  Every operation that the source runs under a mutex is
one atomic step here: a function from the state before to the returned value and
the state after.  `uint64_t` values are natural numbers below `2 ^ 64`, and the
increments are taken modulo `2 ^ 64`.
-/

namespace MultiThinkModel

/-- The value `UINT64_MAX`, returned by `get_next_loop_count` on exhaustion. -/
def UINT64_MAX : Nat := 2 ^ 64 - 1

/-- The fields of `struct MultiThink` (multi_think.h, lines 19-137).
`callback_func` records whether the `std::function` holds a callable;
`thread_finished` is the vector of `uint8_t` flags. -/
structure MultiThink where
  loop_max : Nat
  loop_count : Nat
  done_count : Nat
  callback_seconds : Nat
  callback_func : Bool
  thread_finished : List Nat
deriving DecidableEq, Repr

/-- The constructor `MultiThink() : prng(21120903) { loop_count = 0; }`.
It assigns `loop_count` only; `callback_seconds` has its default member
initialiser `600` and `callback_func` and `thread_finished` are empty.
`loop_max` and `done_count` are not initialised, so the values they hold are
whatever the two arguments say. -/
def MultiThink.new (loop_max₀ done_count₀ : Nat) : MultiThink :=
  { loop_max := loop_max₀, loop_count := 0, done_count := done_count₀,
    callback_seconds := 600, callback_func := false, thread_finished := [] }

/-- The method `set_loop_max` (multi_think.h, line 72). -/
def set_loop_max (s : MultiThink) (loop_max_ : Nat) : MultiThink :=
  { s with loop_max := loop_max_ }

/-- The method `get_next_loop_count` (multi_think.h, lines 88-95): the returned value and
the state after the call. -/
def get_next_loop_count (s : MultiThink) : Nat × MultiThink :=
  if s.loop_count ≥ s.loop_max then
    (UINT64_MAX, s)
  else
    (s.loop_count, { s with loop_count := (s.loop_count + 1) % 2 ^ 64 })

/-- The method `get_done_count` (multi_think.h, lines 100-103): `return ++done_count;`. -/
def get_done_count (s : MultiThink) : Nat × MultiThink :=
  let n := (s.done_count + 1) % 2 ^ 64
  (n, { s with done_count := n })

/-- A sequence of calls to `get_next_loop_count`, one per entry of `callers` (the id of
the thread making the call), each an atomic step.  The result pairs every caller
with the value it received, in call order, and gives the final state. -/
def next_calls : List Nat → MultiThink → List (Nat × Nat) × MultiThink
  | [], s => ([], s)
  | t :: ts, s =>
    let r := get_next_loop_count s
    let rest := next_calls ts r.2
    ((t, r.1) :: rest.1, rest.2)

/-- A sequence of calls to `get_done_count`, one per entry of `callers`. -/
def done_calls : List Nat → MultiThink → List (Nat × Nat) × MultiThink
  | [], s => ([], s)
  | t :: ts, s =>
    let r := get_done_count s
    let rest := done_calls ts r.2
    ((t, r.1) :: rest.1, rest.2)

/-- The values returned by a sequence of calls, in call order. -/
def returned (log : List (Nat × Nat)) : List Nat := log.map Prod.snd

/-! ## TaskDispatcher (multi_think.h, lines 147-200) -/

/-- The type `Task = std::function<void(size_t)>`: an empty function object (what
`nullptr` converts to and compares equal to) or a callable, which is identified
by a number so that its executions can be recorded. -/
inductive Task where
  | null : Task
  | fn (name : Nat) : Task
deriving DecidableEq, Repr

/-- The data of `struct TaskDispatcher`: the vector `tasks`. -/
structure TaskDispatcher where
  tasks : List Task
deriving DecidableEq, Repr

/-- The method `push_task_async` (lines 164-168): `tasks.push_back(task)`. -/
def push_task_async (d : TaskDispatcher) (task : Task) : TaskDispatcher :=
  { tasks := d.tasks ++ [task] }

/-- The method `get_task_async` (lines 184-195): `nullptr` when the vector is empty,
otherwise the element `*tasks.rbegin()`, which `pop_back` removes (the vector is
not empty there, so the default of `getLastD` is never used). -/
def get_task_async (d : TaskDispatcher) : Task × TaskDispatcher :=
  if d.tasks.length = 0 then
    (Task.null, d)
  else
    (d.tasks.getLastD Task.null, { tasks := d.tasks.dropLast })

/-- Pushing the tasks of a list one after the other, first element first. -/
def push_all (d : TaskDispatcher) (ts : List Task) : TaskDispatcher :=
  ts.foldl push_task_async d

/-- The call `get_task_async` made `n` times in a row: the tasks returned, in call order,
and the dispatcher afterwards. -/
def pop_n : Nat → TaskDispatcher → List Task × TaskDispatcher
  | 0, d => ([], d)
  | n + 1, d =>
    let r := get_task_async d
    let rest := pop_n n r.2
    (r.1 :: rest.1, rest.2)

/-- Modelled from the spec: the external key-value configuration store `Options`, whose
type is declared outside the files at hand (`../uci.h`).  The spec calls it
"a full copy of external key→value configuration" with "named configuration
entries" that are read and written; it is a list of (key, value) pairs, looked
up by key. -/
abbrev OptionsMap := List (String × String)

namespace Store

/-- Modelled from the spec: reading the entry named `key`, `none` when the store has no
such entry. -/
def value : OptionsMap → String → Option String
  | [], _ => none
  | (k, v) :: rest, key => if k = key then some v else value rest key

/-- Modelled from the spec: the write `Options[key] = v`.  The entry named `key` gets the
value `v`; a store without such an entry gets one. -/
def assign : OptionsMap → String → String → OptionsMap
  | [], key, v => [(key, v)]
  | (k, w) :: rest, key, v =>
    if k = key then (key, v) :: rest else (k, w) :: assign rest key v

/-- The keys of a store. -/
def keys (o : OptionsMap) : List String := o.map Prod.fst

/-- A list of writes applied in order. -/
def assign_all (o : OptionsMap) (writes : List (String × String)) : OptionsMap :=
  writes.foldl (fun acc s => assign acc s.1 s.2) o

/-- Two stores are identical by key and value: every key has the same entry, or none, in
both. -/
def same (a b : OptionsMap) : Prop := ∀ key, value a key = value b key

end Store

/-! ## go_think (multi_think.cpp, lines 12-158) -/

/-- The steps of the lambda that `go_think` runs in thread `i` (lines 57-70). -/
inductive ThreadStep where
  | bindThisThread (i : Nat) : ThreadStep
  | thread_worker (i : Nat) : ThreadStep
  | set_finished (i : Nat) : ThreadStep
deriving DecidableEq, Repr

/-- What the controlling thread does during `go_think`, in program order.  A `spawn`
carries the body of the thread it starts: the steps of that body happen after
the spawn and concurrently with the later events. -/
inductive Event where
  | assign (key v : String) : Event
  | is_ready : Event
  | init : Event
  | clear_flag (i : Nat) : Event
  | spawn (i : Nat) (body : List ThreadStep) : Event
  | sleep (ms : Nat) : Event
  | callback : Event
  | join (i : Nat) : Event
deriving DecidableEq, Repr

/-- What the surroundings contribute to one run of `go_think`.
`to_size` is the conversion `(size_t)Options["Threads"]`, declared outside the
files at hand.  `setup_writes` are the writes to `Options` made by
`is_ready(true)` and `init()`, `worker_writes` those made afterwards (by workers
and by the callback) until the restore loop starts.  `observed` lists the
content of `thread_finished` as read by the successive calls of `threads_done`. -/
structure Run where
  to_size : Option String → Nat
  setup_writes : List (String × String)
  worker_writes : List (String × String)
  observed : List (List Nat)

/-- The body of the thread with index `i` (lines 57-70): bind, `thread_worker(i)`, then
`thread_finished[i] = 1`. -/
def thread_body (i : Nat) : List ThreadStep :=
  [ThreadStep.bindThisThread i, ThreadStep.thread_worker i, ThreadStep.set_finished i]

/-- The call `std::vector::resize(n)` on a vector of flags: cut to `n` elements, or filled
up with zeros. -/
def resize (v : List Nat) (n : Nat) : List Nat :=
  v.take n ++ List.replicate (n - v.length) 0

/-- The spawn loop `for (size_t i = 0; i < thread_num; ++i)` (lines 53-71), with `count`
iterations left and loop variable `i`: each iteration clears `thread_finished[i]`
and then starts thread `i`. -/
def spawn_loop : Nat → Nat → List Nat → List Nat × List Event
  | 0, _, flags => (flags, [])
  | count + 1, i, flags =>
    let r := spawn_loop count (i + 1) (flags.set i 0)
    (r.1, Event.clear_flag i :: Event.spawn i (thread_body i) :: r.2)

/-- The lambda `threads_done` (lines 88-96): false as soon as one flag is zero. -/
def threads_done : List Nat → Bool
  | [] => true
  | f :: fs => if f = 0 then false else threads_done fs

/-- The lambda `do_a_callback` (lines 100-104): calls `callback_func` when it is set. -/
def do_a_callback (callback_func : Bool) : List Event :=
  if callback_func then [Event.callback] else []

/-- The state in which the supervision loop ends: the events it produced, the tick
counter `i`, and the observations it did not consume. -/
structure Supervised where
  events : List Event
  i : Nat
  unread : List (List Nat)
deriving DecidableEq, Repr

/-- The supervision loop `for (uint64_t i = 0 ; ; )` (lines 107-129), started with tick
counter `i`.  Each iteration consumes one observation of `thread_finished`;
`none` means that the observations ran out with the loop still running. -/
def supervise (callback_seconds : Nat) (callback_func : Bool) :
    List (List Nat) → Nat → Option Supervised
  | [], _ => none
  | flags :: rest, i =>
    if threads_done flags then
      some { events := [], i := i, unread := rest }
    else
      let i1 := (i + 1) % 2 ^ 64
      if i1 = callback_seconds then
        (supervise callback_seconds callback_func rest 0).map fun r =>
          { r with events := Event.sleep 1000 :: (do_a_callback callback_func ++ r.events) }
      else
        (supervise callback_seconds callback_func rest i1).map fun r =>
          { r with events := Event.sleep 1000 :: r.events }

/-- The state of `go_think` once its spawn loop has ended (line 71): the object, the
store, the snapshot `oldOptions`, `thread_num`, and the events so far. -/
structure Started where
  self : MultiThink
  Options : OptionsMap
  oldOptions : OptionsMap
  thread_num : Nat
  trace : List Event

/-- The first part of `go_think` (lines 16-71): snapshot, the `BookOnTheFly` write,
`is_ready(true)`, `init()`, the counter reset, and the spawn loop. -/
def go_think_start (run : Run) (self : MultiThink) (Options : OptionsMap) : Started :=
  let oldOptions := Options
  let Options1 := Store.assign Options "BookOnTheFly" "false"
  let Options2 := Store.assign_all Options1 run.setup_writes
  let self1 := { self with loop_count := 0, done_count := 0 }
  let thread_num := run.to_size (Store.value Options2 "Threads")
  let flags := resize self1.thread_finished thread_num
  let spawned := spawn_loop thread_num 0 flags
  { self := { self1 with thread_finished := spawned.1 },
    Options := Options2,
    oldOptions := oldOptions,
    thread_num := thread_num,
    trace := [Event.assign "BookOnTheFly" "false", Event.is_ready, Event.init] ++ spawned.2 }

/-- The state in which `go_think` returns: the store and all events of the run. -/
structure Finished where
  Options : OptionsMap
  trace : List Event

/-- The method `go_think` (lines 12-158): the first part, the supervision loop, the joins
(lines 142-143) and the restore loop (lines 156-157).  `none` means that the
supervision loop has not ended within the observations of the run. -/
def go_think (run : Run) (self : MultiThink) (Options : OptionsMap) : Option Finished :=
  let st := go_think_start run self Options
  match supervise st.self.callback_seconds st.self.callback_func run.observed 0 with
  | none => none
  | some sup =>
    let joins := (List.range st.thread_num).map Event.join
    let before_restore := Store.assign_all st.Options run.worker_writes
    some { Options := Store.assign_all before_restore st.oldOptions,
           trace := st.trace ++ sup.events ++ joins ++
             st.oldOptions.map (fun s => Event.assign s.1 s.2) }

/-- The indices with which `thread_worker` is invoked by the threads started in a trace,
in spawn order. -/
def worker_calls : List Event → List Nat
  | [] => []
  | Event.spawn _ body :: es =>
    body.filterMap (fun st => match st with
      | ThreadStep.thread_worker j => some j
      | _ => none) ++ worker_calls es
  | _ :: es => worker_calls es


end MultiThinkModel

/-!
# Factorizer (src/eval/nnue/trainer/features/factorizer.h, factorizer_half_kp.h)

The helper functions of `factorizer.h` and the specialisation of `Factorizer` for
`HalfKP`.  A function that appends to `*training_features` takes the vector as it
is before the call and returns it as it is afterwards.  Values of `IndexType` are
natural numbers and the additions on them are taken modulo `2 ^ bits`.  An
`assert` does not stop the model: every function reports the assertions whose
condition was false, first failure first, so that the values describe a build
without assertions and, when nothing is reported, a build with them.
-/

namespace Features

/-- The struct `FeatureProperties` (factorizer.h, lines 41-44). -/
structure FeatureProperties where
  active : Bool
  dimensions : Nat
deriving DecidableEq, Repr

/-- Modelled from the spec: the class `TrainingFeature`, declared in `../trainer.h`, which
is not among the files at hand.  The two headers build a feature from an index
(`emplace_back(index)`), read that index with `GetIndex()` and move it with
`ShiftIndex(offset)`; a feature is the index it holds. -/
structure TrainingFeature where
  index : Nat
deriving DecidableEq, Repr

/-- Modelled from the spec: the method `TrainingFeature::GetIndex` of `../trainer.h`. -/
def TrainingFeature.GetIndex (feature : TrainingFeature) : Nat := feature.index

/-- Modelled from the spec: the method `TrainingFeature::ShiftIndex` of `../trainer.h`,
which increases the index by `offset`.  The index and the offset are
`IndexType` values (factorizer.h, line 63), so the sum is taken modulo
`2 ^ bits`, `bits` being the width of `IndexType`. -/
def TrainingFeature.ShiftIndex (bits : Nat) (feature : TrainingFeature) (offset : Nat) :
    TrainingFeature :=
  { index := (feature.index + offset) % 2 ^ bits }

/-- The `assert` statements of the two headers.  `nested` marks an assertion that failed
inside the call `Factorizer<FeatureType>::AppendTrainingFeatures` made by
`InheritFeaturesIfRequired`. -/
inductive Assertion where
  | generic_base_index : Assertion
  | base_dimensions : Assertion
  | base_base_index : Assertion
  | inherit_dimensions : Assertion
  | inherit_base_index : Assertion
  | inherit_feature_index : Assertion
  | offset_total : Assertion
  | nested (a : Assertion) : Assertion
deriving DecidableEq, Repr

/-- The statement `assert(condition)`: nothing when the condition holds, the assertion
otherwise. -/
def assert_that (condition : Bool) (a : Assertion) : List Assertion :=
  if condition then [] else [a]

/-- What `InheritFeaturesIfRequired<FeatureType>` uses of its template argument:
`FeatureType::kDimensions`, `Factorizer<FeatureType>::GetDimensions()`, and for
`Factorizer<FeatureType>::AppendTrainingFeatures(base_index, training_features)`
the features it puts at the back of the vector and the assertions that fail in
it. -/
structure Factorizer where
  kDimensions : Nat
  GetDimensions : Nat
  emitted : Nat → List TrainingFeature
  failed : Nat → List Assertion

/-- The class template `Factorizer<FeatureType>` as it stands (factorizer.h, lines 21-37),
for a feature type with the given `kDimensions`. -/
def Factorizer.generic (kDimensions : Nat) : Factorizer :=
  { kDimensions := kDimensions,
    GetDimensions := kDimensions,
    emitted := fun base_index => [{ index := base_index }],
    failed := fun base_index =>
      assert_that (decide (base_index < kDimensions)) Assertion.generic_base_index }

/-- The call `Factorizer<FeatureType>::AppendTrainingFeatures(base_index, training_features)`:
the vector afterwards and the assertions that failed. -/
def Factorizer.AppendTrainingFeatures (F : Factorizer) (base_index : Nat)
    (training_features : List TrainingFeature) : List TrainingFeature × List Assertion :=
  (training_features ++ F.emitted base_index, F.failed base_index)

/-- What a helper function leaves: the vector, the `IndexType` it returns, and the
assertions that failed. -/
structure Appended where
  training_features : List TrainingFeature
  result : Nat
  failed : List Assertion
deriving DecidableEq, Repr

/-- The function template `AppendBaseFeature<FeatureType>` (factorizer.h, lines 46-58);
`kDimensions` is `FeatureType::kDimensions`. -/
def AppendBaseFeature (kDimensions : Nat) (properties : FeatureProperties) (base_index : Nat)
    (training_features : List TrainingFeature) : Appended :=
  { training_features := training_features ++ [{ index := base_index }],
    result := properties.dimensions,
    failed :=
      assert_that (decide (properties.dimensions = kDimensions)) Assertion.base_dimensions ++
      assert_that (decide (base_index < kDimensions)) Assertion.base_base_index }

/-- The loop `for (auto i = start; i < training_features->size(); ++i)` of
`InheritFeaturesIfRequired` (factorizer.h, lines 74-80), with `count` iterations
left and loop variable `i`: it checks the index of element `i` and shifts it by
`index_offset`; `bits` is the width of `IndexType`. -/
def shift_loop (bits : Nat) (F : Factorizer) (index_offset : Nat) :
    Nat → Nat → List TrainingFeature → List TrainingFeature × List Assertion
  | 0, _, v => (v, [])
  | count + 1, i, v =>
    match v[i]? with
    | none => (v, [])
    | some feature =>
      let r := shift_loop bits F index_offset count (i + 1)
        (v.set i (feature.ShiftIndex bits index_offset))
      (r.1,
       assert_that (decide (feature.GetIndex < F.GetDimensions))
         Assertion.inherit_feature_index ++ r.2)

/-- The function template `InheritFeaturesIfRequired<FeatureType>` (factorizer.h, lines
60-83); `bits` is the width of `IndexType`. -/
def InheritFeaturesIfRequired (bits : Nat) (F : Factorizer) (index_offset : Nat)
    (properties : FeatureProperties) (base_index : Nat)
    (training_features : List TrainingFeature) : Appended :=
  if !properties.active then
    { training_features := training_features, result := 0, failed := [] }
  else
    let start := training_features.length
    let appended := F.AppendTrainingFeatures base_index training_features
    let shifted := shift_loop bits F index_offset (appended.1.length - start) start appended.1
    { training_features := shifted.1,
      result := properties.dimensions,
      failed :=
        assert_that (decide (properties.dimensions = F.GetDimensions))
          Assertion.inherit_dimensions ++
        assert_that (decide (base_index < F.kDimensions)) Assertion.inherit_base_index ++
        appended.2.map Assertion.nested ++ shifted.2 }

/-- The function `SkipFeatures` (factorizer.h, lines 85-91). -/
def SkipFeatures (properties : FeatureProperties) : Nat :=
  if properties.active then properties.dimensions else 0

/-- The function template `GetActiveDimensions` (factorizer.h, lines 93-107) on an array
given as the list of its elements; `bits` is the width of `IndexType`.  The
`static_assert(N > 0)` excludes the empty array. -/
def GetActiveDimensions (bits : Nat) : List FeatureProperties → Nat
  | [] => 0
  | first :: rest =>
    rest.foldl
      (fun dimensions properties =>
        if properties.active then (dimensions + properties.dimensions) % 2 ^ bits
        else dimensions)
      first.dimensions

/-- The array `kProperties` of `Factorizer<HalfKP<AssociatedKing>>`, one entry for each
value of `TrainingFeatureType` (factorizer_half_kp.h, lines 33-52). -/
structure Properties where
  kFeaturesHalfKP : FeatureProperties
  kFeaturesHalfK : FeatureProperties
  kFeaturesP : FeatureProperties
  kFeaturesHalfRelativeKP : FeatureProperties
deriving DecidableEq, Repr

/-- The elements of the array, in index order. -/
def Properties.toList (kProperties : Properties) : List FeatureProperties :=
  [kProperties.kFeaturesHalfKP, kProperties.kFeaturesHalfK, kProperties.kFeaturesP,
   kProperties.kFeaturesHalfRelativeKP]

/-- The declarations that `factorizer_half_kp.h` takes from other files: the width of
`IndexType` (`../../nnue_common.h`), the constants `SQUARE_NB`, `fe_end` and
`fe_hand_end`, `HalfKP<AssociatedKing>::kDimensions`, the factorizers of `P` and
of `HalfRelativeKP<AssociatedKing>`, and
`HalfRelativeKP<AssociatedKing>::MakeIndex`. -/
structure HalfKP where
  bits : Nat
  SQUARE_NB : Nat
  fe_end : Nat
  fe_hand_end : Nat
  kDimensions : Nat
  P : Factorizer
  HalfRelativeKP : Factorizer
  MakeIndex : Nat → Nat → Nat

/-- The initialiser of `kProperties` (factorizer_half_kp.h, lines 43-52). -/
def HalfKP.kProperties (c : HalfKP) : Properties :=
  { kFeaturesHalfKP := { active := true, dimensions := c.kDimensions },
    kFeaturesHalfK := { active := true, dimensions := c.SQUARE_NB },
    kFeaturesP := { active := true, dimensions := c.P.GetDimensions },
    kFeaturesHalfRelativeKP := { active := true, dimensions := c.HalfRelativeKP.GetDimensions } }

/-- The method `Factorizer<HalfKP<AssociatedKing>>::GetDimensions` (lines 59-61), for a
given content of `kProperties`. -/
def HalfKP.GetDimensions (c : HalfKP) (kProperties : Properties) : Nat :=
  GetActiveDimensions c.bits kProperties.toList

/-- The method `Factorizer<HalfKP<AssociatedKing>>::AppendTrainingFeatures` (lines 65-95),
for a given content of `kProperties`: the vector afterwards, the final value of
`index_offset`, and the assertions that failed. -/
def HalfKP.AppendTrainingFeatures (c : HalfKP) (kProperties : Properties) (base_index : Nat)
    (training_features : List TrainingFeature) : Appended :=
  let base := AppendBaseFeature c.kDimensions kProperties.kFeaturesHalfKP base_index
    training_features
  let index_offset0 := base.result
  let sq_k := base_index / c.fe_end
  let p := base_index % c.fe_end
  let properties := kProperties.kFeaturesHalfK
  let features1 :=
    if properties.active then
      base.training_features ++ [{ index := (index_offset0 + sq_k) % 2 ^ c.bits }]
    else base.training_features
  let index_offset1 :=
    if properties.active then (index_offset0 + properties.dimensions) % 2 ^ c.bits
    else index_offset0
  let inherited_p :=
    InheritFeaturesIfRequired c.bits c.P index_offset1 kProperties.kFeaturesP p features1
  let index_offset2 := (index_offset1 + inherited_p.result) % 2 ^ c.bits
  let relative :=
    if p ≥ c.fe_hand_end then
      InheritFeaturesIfRequired c.bits c.HalfRelativeKP index_offset2
        kProperties.kFeaturesHalfRelativeKP (c.MakeIndex sq_k p) inherited_p.training_features
    else
      { training_features := inherited_p.training_features,
        result := SkipFeatures kProperties.kFeaturesHalfRelativeKP,
        failed := [] }
  let index_offset3 := (index_offset2 + relative.result) % 2 ^ c.bits
  { training_features := relative.training_features,
    result := index_offset3,
    failed := base.failed ++ inherited_p.failed ++ relative.failed ++
      assert_that (decide (index_offset3 = c.GetDimensions kProperties)) Assertion.offset_total }

end Features

namespace MultiThinkModel

/-! ## Theorems -/

theorem get_next_loop_count_of_ge (s : MultiThink) (h : s.loop_count ≥ s.loop_max) :
    get_next_loop_count s = (UINT64_MAX, s) := by
  simp [get_next_loop_count, h]

theorem get_next_loop_count_of_lt (s : MultiThink) (h : s.loop_count < s.loop_max)
    (hmax : s.loop_max < 2 ^ 64) :
    get_next_loop_count s = (s.loop_count, { s with loop_count := s.loop_count + 1 }) := by
  have h1 : ¬ s.loop_count ≥ s.loop_max := by omega
  have h2 : (s.loop_count + 1) % 2 ^ 64 = s.loop_count + 1 := Nat.mod_eq_of_lt (by omega)
  unfold get_next_loop_count
  rw [if_neg h1, h2]

theorem returned_next_calls (callers : List Nat) :
    ∀ s : MultiThink, s.loop_count ≤ s.loop_max → s.loop_max < 2 ^ 64 →
      returned (next_calls callers s).1 =
        List.range' s.loop_count (min callers.length (s.loop_max - s.loop_count)) ++
          List.replicate (callers.length - (s.loop_max - s.loop_count)) UINT64_MAX := by
  induction callers with
  | nil => intro s _ _; simp [next_calls, returned]
  | cons t ts ih =>
    intro s hle hmax
    by_cases h : s.loop_count ≥ s.loop_max
    · have hs := ih s hle hmax
      have e : s.loop_max - s.loop_count = 0 := by omega
      simp only [returned] at hs ⊢
      simp only [next_calls, get_next_loop_count_of_ge s h, List.map_cons, hs, e]
      simp [List.replicate_succ]
    · have hlt : s.loop_count < s.loop_max := by omega
      have hs := ih { s with loop_count := s.loop_count + 1 } (by simpa using hlt) hmax
      simp only [returned] at hs ⊢
      simp only [next_calls, get_next_loop_count_of_lt s hlt hmax, List.map_cons, hs]
      have e1 : min (ts.length + 1) (s.loop_max - s.loop_count) =
          min ts.length (s.loop_max - (s.loop_count + 1)) + 1 := by omega
      have e2 : ts.length + 1 - (s.loop_max - s.loop_count) =
          ts.length - (s.loop_max - (s.loop_count + 1)) := by omega
      simp only [List.length_cons, e1, e2, List.range'_succ, List.cons_append]

theorem callers_next_calls (callers : List Nat) :
    ∀ s : MultiThink, (next_calls callers s).1.map Prod.fst = callers := by
  induction callers with
  | nil => intro s; simp [next_calls]
  | cons t ts ih => intro s; simp [next_calls, ih]


/-- C1: starting from `loop_count = 0` with `loop_max = M`, in any sequence of calls to
`get_next_loop_count`, whoever the callers are, the k-th call returns `k - 1`
for `k ≤ M` and `UINT64_MAX` for `k > M`; so the values returned are
`0, 1, ..., M - 1` followed by the sentinel only, every index below `M` is
returned exactly once as soon as `M` calls were made, and with `M = 0` every
call returns the sentinel. -/
theorem next_loop_count_hands_out_each_index_once (s : MultiThink) (callers : List Nat)
    (h0 : s.loop_count = 0) (hmax : s.loop_max < 2 ^ 64) :
    (next_calls callers s).1.map Prod.fst = callers ∧
    returned (next_calls callers s).1 =
      List.range (min callers.length s.loop_max) ++
        List.replicate (callers.length - s.loop_max) UINT64_MAX ∧
    (∀ k, 1 ≤ k → k ≤ callers.length →
      (returned (next_calls callers s).1)[k - 1]? =
        some (if k ≤ s.loop_max then k - 1 else UINT64_MAX)) ∧
    (∀ j, j < s.loop_max → s.loop_max ≤ callers.length →
      (returned (next_calls callers s).1).count j = 1) ∧
    (s.loop_max = 0 → ∀ v ∈ returned (next_calls callers s).1, v = UINT64_MAX) := by
  have hret : returned (next_calls callers s).1 =
      List.range (min callers.length s.loop_max) ++
        List.replicate (callers.length - s.loop_max) UINT64_MAX := by
    have h := returned_next_calls callers s (by omega) hmax
    rw [h0] at h
    simpa [List.range_eq_range'] using h
  refine ⟨callers_next_calls callers s, hret, ?_, ?_, ?_⟩
  · intro k hk1 hkn
    rw [hret]
    by_cases hk : k ≤ s.loop_max
    · rw [if_pos hk, List.getElem?_append_left (by simp; omega)]
      simp [List.getElem?_range, show k - 1 < min callers.length s.loop_max by omega]
    · rw [if_neg hk, List.getElem?_append_right (by simp; omega)]
      rw [List.getElem?_replicate]
      simp
      omega
  · intro j hj hn
    rw [hret, List.count_append]
    have hne : UINT64_MAX ≠ j := by unfold UINT64_MAX; omega
    have h1 : List.count j (List.range (min callers.length s.loop_max)) = 1 :=
      List.count_eq_one_of_mem (List.nodup_range _) (by simp; omega)
    rw [h1, List.count_replicate]
    simp [hne]
  · intro hM v hv
    rw [hret, hM] at hv
    simpa using (List.mem_append.mp hv).elim (fun h => by simp at h) (fun h => (List.mem_replicate.mp h).2)

/-- Witness for C1: three threads make five calls on a fresh object with `loop_max = 3`. -/
theorem next_loop_count_hands_out_each_index_once_witness :
    (set_loop_max (MultiThink.new 7 7) 3).loop_count = 0 ∧
    returned (next_calls [2, 0, 1, 1, 2] (set_loop_max (MultiThink.new 7 7) 3)).1 =
      [0, 1, 2, UINT64_MAX, UINT64_MAX] :=
  ⟨by decide,
    (next_loop_count_hands_out_each_index_once (set_loop_max (MultiThink.new 7 7) 3)
      [2, 0, 1, 1, 2] (by decide) (by decide)).2.1.trans (by decide)⟩

/-- C2: when `loop_count >= loop_max`, `get_next_loop_count` returns `UINT64_MAX` and
leaves the state as it is; otherwise it returns the old `loop_count` and the
state afterwards differs from the state before in `loop_count` only, which is
the old value plus one. -/
theorem get_next_loop_count_contract (s : MultiThink) (hmax : s.loop_max < 2 ^ 64) :
    (s.loop_count ≥ s.loop_max → get_next_loop_count s = (UINT64_MAX, s)) ∧
    (s.loop_count < s.loop_max →
      (get_next_loop_count s).1 = s.loop_count ∧
      (get_next_loop_count s).2 = { s with loop_count := s.loop_count + 1 } ∧
      (get_next_loop_count s).2.loop_count = s.loop_count + 1 ∧
      (get_next_loop_count s).2.loop_max = s.loop_max ∧
      (get_next_loop_count s).2.done_count = s.done_count) := by
  refine ⟨get_next_loop_count_of_ge s, fun h => ?_⟩
  rw [get_next_loop_count_of_lt s h hmax]
  exact ⟨rfl, rfl, rfl, rfl, rfl⟩

/-- Witness for C2: a state with `loop_count = 4` below `loop_max = 9`. -/
theorem get_next_loop_count_contract_witness :
    get_next_loop_count
        { loop_max := 9, loop_count := 4, done_count := 2, callback_seconds := 600,
          callback_func := false, thread_finished := [] } =
      (4, { loop_max := 9, loop_count := 5, done_count := 2, callback_seconds := 600,
            callback_func := false, thread_finished := [] }) :=
  Prod.ext
    ((get_next_loop_count_contract
      { loop_max := 9, loop_count := 4, done_count := 2, callback_seconds := 600,
        callback_func := false, thread_finished := [] } (by decide)).2 (by decide)).1
    ((get_next_loop_count_contract
      { loop_max := 9, loop_count := 4, done_count := 2, callback_seconds := 600,
        callback_func := false, thread_finished := [] } (by decide)).2 (by decide)).2.1

/-! ### TaskDispatcher -/

theorem get_task_async_nil : get_task_async { tasks := [] } = (Task.null, { tasks := [] }) := by
  simp [get_task_async]

theorem get_task_async_concat (front : List Task) (last : Task) :
    get_task_async { tasks := front ++ [last] } = (last, { tasks := front }) := by
  simp [get_task_async, List.getLastD_concat]

theorem push_all_tasks (ts : List Task) :
    ∀ d : TaskDispatcher, push_all d ts = { tasks := d.tasks ++ ts } := by
  induction ts with
  | nil => intro d; simp [push_all]
  | cons t ts ih =>
    intro d
    have h := ih (push_task_async d t)
    simp only [push_all, List.foldl_cons] at h ⊢
    rw [h]
    simp [push_task_async]

theorem pop_n_append_reverse (q ts : List Task) :
    pop_n ts.length { tasks := q ++ ts } = (ts.reverse, { tasks := q }) := by
  induction ts using List.reverseRecOn with
  | nil => simp [pop_n]
  | append_singleton ts t ih =>
    rw [← List.append_assoc, List.length_append, List.length_singleton, pop_n,
      get_task_async_concat]
    simp [ih]

/-- C3: for every queue content and every list of tasks, pushing the tasks in order with
`push_task_async` and then calling `get_task_async` as many times returns the
tasks in reverse order and leaves the queue with its original content. -/
theorem push_then_pop_is_lifo (d : TaskDispatcher) (ts : List Task) :
    pop_n ts.length (push_all d ts) = (ts.reverse, d) := by
  rw [push_all_tasks, pop_n_append_reverse]

/-- C8: on an empty queue `get_task_async` returns the empty function object and leaves
the queue empty; on a queue `front ++ [last]` it returns `last` and leaves
`front`, so on every non-empty queue the returned task put back at the end of
the remaining queue gives the original queue, which is one element longer. -/
theorem get_task_async_contract (d : TaskDispatcher) :
    (d.tasks = [] → get_task_async d = (Task.null, { tasks := [] })) ∧
    (∀ front last, d.tasks = front ++ [last] →
      get_task_async d = (last, { tasks := front })) ∧
    (d.tasks ≠ [] →
      (get_task_async d).2.tasks ++ [(get_task_async d).1] = d.tasks ∧
      (get_task_async d).2.tasks.length + 1 = d.tasks.length ∧
      (get_task_async d).2.tasks = d.tasks.dropLast ∧
      d.tasks.getLast? = some (get_task_async d).1) := by
  obtain ⟨q⟩ := d
  refine ⟨?_, ?_, ?_⟩
  · intro h
    simp only at h
    subst h
    exact get_task_async_nil
  · intro front last h
    simp only at h
    subst h
    exact get_task_async_concat front last
  · intro h
    simp only [ne_eq] at h
    obtain ⟨front, last, rfl⟩ : ∃ front last, q = front ++ [last] := by
      rcases List.eq_nil_or_concat q with h1 | ⟨front, last, h1⟩
      · exact absurd h1 h
      · exact ⟨front, last, by simpa using h1⟩
    rw [get_task_async_concat]
    simp

/-- Witness for C8: a queue of three tasks, the last of them an empty function object
pushed after two callables. -/
theorem get_task_async_contract_witness :
    get_task_async { tasks := [Task.fn 1, Task.fn 2, Task.null] } =
      (Task.null, { tasks := [Task.fn 1, Task.fn 2] }) ∧
    get_task_async { tasks := [Task.fn 1, Task.fn 2] } = (Task.fn 2, { tasks := [Task.fn 1] }) ∧
    get_task_async { tasks := [] } = (Task.null, { tasks := [] }) :=
  ⟨(get_task_async_contract { tasks := [Task.fn 1, Task.fn 2, Task.null] }).2.1
      [Task.fn 1, Task.fn 2] Task.null rfl,
    (get_task_async_contract { tasks := [Task.fn 1, Task.fn 2] }).2.1 [Task.fn 1] (Task.fn 2) rfl,
    (get_task_async_contract { tasks := [] }).1 rfl⟩

theorem supervise_ticks (c : Nat) (cb : Bool) (last : List Nat) (rest : List (List Nat))
    (hc : 1 ≤ c) (hc64 : c < 2 ^ 64) (hlast : threads_done last = true)
    (pre : List (List Nat)) :
    ∀ i0, i0 < c → (∀ f ∈ pre, threads_done f = false) →
      ∃ ev, supervise c cb (pre ++ last :: rest) i0 =
          some { events := ev, i := (i0 + pre.length) % c, unread := rest } ∧
        ev.count Event.callback = (if cb then (i0 + pre.length) / c else 0) ∧
        ev.count (Event.sleep 1000) = pre.length := by
  induction pre with
  | nil =>
    intro i0 hi _
    refine ⟨[], ?_, ?_, by simp⟩
    · simp [supervise, hlast, Nat.mod_eq_of_lt hi]
    · simp [Nat.div_eq_of_lt hi]
  | cons f pre ih =>
    intro i0 hi hpre
    have hf : threads_done f = false := hpre f (by simp)
    have hpre1 : ∀ g ∈ pre, threads_done g = false := fun g hg => hpre g (by simp [hg])
    have hmod : (i0 + 1) % 2 ^ 64 = i0 + 1 := Nat.mod_eq_of_lt (by omega)
    by_cases heq : i0 + 1 = c
    · subst heq
      obtain ⟨ev, hrun, hcb, hsl⟩ := ih 0 (by omega) hpre1
      refine ⟨Event.sleep 1000 :: (do_a_callback cb ++ ev), ?_, ?_, ?_⟩
      · rw [List.cons_append, supervise]
        simp only [hf, Bool.false_eq_true, if_false, hmod, if_true, hrun, Option.map_some]
        have e : (i0 + (f :: pre).length) % (i0 + 1) = (0 + pre.length) % (i0 + 1) := by
          rw [List.length_cons]
          have : i0 + (pre.length + 1) = (i0 + 1) + pre.length := by omega
          rw [this, Nat.add_mod_left, Nat.zero_add]
        rw [e]
        rfl
      · have e : (i0 + (f :: pre).length) / (i0 + 1) = (0 + pre.length) / (i0 + 1) + 1 := by
          rw [List.length_cons]
          have : i0 + (pre.length + 1) = (i0 + 1) + pre.length := by omega
          rw [this, Nat.add_div_left _ (by omega), Nat.zero_add]
        rw [e]
        cases cb <;> simp [do_a_callback, List.count_cons] at hcb ⊢ <;> omega
      · cases cb <;> simp [do_a_callback, List.count_cons, hsl]
    · obtain ⟨ev, hrun, hcb, hsl⟩ := ih (i0 + 1) (by omega) hpre1
      refine ⟨Event.sleep 1000 :: ev, ?_, ?_, ?_⟩
      · rw [List.cons_append, supervise]
        simp only [hf, Bool.false_eq_true, if_false, hmod, hrun, Option.map_some, if_neg heq]
        have e : i0 + (f :: pre).length = i0 + 1 + pre.length := by
          rw [List.length_cons]; omega
        rw [e]
        rfl
      · have e : i0 + (f :: pre).length = i0 + 1 + pre.length := by
          rw [List.length_cons]; omega
        rw [e]
        simpa [List.count_cons] using hcb
      · simp [List.count_cons, hsl]

/-! ### go_think -/

theorem length_resize (v : List Nat) (n : Nat) : (resize v n).length = n := by
  simp [resize]
  omega

theorem spawn_loop_events (count : Nat) :
    ∀ (i : Nat) (flags : List Nat),
      (spawn_loop count i flags).2 =
        (List.range' i count).flatMap
          (fun j => [Event.clear_flag j, Event.spawn j (thread_body j)]) := by
  induction count with
  | zero => intro i flags; simp [spawn_loop]
  | succ n ih =>
    intro i flags
    simp [spawn_loop, ih, List.range'_succ]

theorem spawn_loop_flags (count : Nat) :
    ∀ (i : Nat) (flags : List Nat),
      (spawn_loop count i flags).1.length = flags.length ∧
      ∀ j, (spawn_loop count i flags).1[j]? =
        if i ≤ j ∧ j < i + count ∧ j < flags.length then some 0 else flags[j]? := by
  induction count with
  | zero =>
    intro i flags
    refine ⟨by simp [spawn_loop], fun j => ?_⟩
    rw [if_neg (by omega)]
    simp [spawn_loop]
  | succ n ih =>
    intro i flags
    obtain ⟨hl, hg⟩ := ih (i + 1) (flags.set i 0)
    refine ⟨by simpa [spawn_loop] using hl, fun j => ?_⟩
    simp only [spawn_loop]
    rw [hg j, List.getElem?_set, List.length_set]
    by_cases hij : i = j
    · subst hij
      by_cases hlt : i < flags.length
      · simp [hlt]
      · rw [if_neg (by omega), if_pos rfl, if_neg hlt, if_neg (by omega)]
        exact (List.getElem?_eq_none (Nat.le_of_not_lt hlt)).symm
    · by_cases h1 : i + 1 ≤ j ∧ j < i + 1 + n ∧ j < flags.length
      · rw [if_pos h1, if_pos ⟨by omega, by omega, h1.2.2⟩]
      · rw [if_neg h1, if_neg hij, if_neg (by omega)]

theorem spawn_loop_clears (v : List Nat) (n : Nat) :
    (spawn_loop n 0 (resize v n)).1 = List.replicate n 0 := by
  obtain ⟨hl, hg⟩ := spawn_loop_flags n 0 (resize v n)
  rw [length_resize] at hl hg
  apply List.ext_getElem?
  intro j
  rw [hg j]
  by_cases hj : j < n
  · rw [if_pos ⟨by omega, by omega, hj⟩, List.getElem?_replicate, if_pos hj]
  · rw [if_neg (by omega), List.getElem?_replicate, if_neg hj]
    exact List.getElem?_eq_none (by rw [length_resize]; omega)

theorem worker_calls_append (a b : List Event) :
    worker_calls (a ++ b) = worker_calls a ++ worker_calls b := by
  induction a with
  | nil => simp [worker_calls]
  | cons e es ih => cases e <;> simp [worker_calls, ih]

theorem worker_calls_spawn_loop (count : Nat) :
    ∀ (i : Nat) (flags : List Nat),
      worker_calls (spawn_loop count i flags).2 = List.range' i count := by
  induction count with
  | zero => intro i flags; simp [spawn_loop, worker_calls]
  | succ n ih =>
    intro i flags
    simp [spawn_loop, worker_calls, thread_body, ih, List.range'_succ]

theorem mem_spawn_loop (count i : Nat) (flags : List Nat) (e : Event)
    (h : e ∈ (spawn_loop count i flags).2) :
    ∃ j, i ≤ j ∧ j < i + count ∧ (e = Event.clear_flag j ∨ e = Event.spawn j (thread_body j)) := by
  rw [spawn_loop_events, List.mem_flatMap] at h
  obtain ⟨j, hj, he⟩ := h
  rw [List.mem_range'_1] at hj
  refine ⟨j, hj.1, hj.2, ?_⟩
  simpa using he

theorem go_think_of_supervise (run : Run) (self : MultiThink) (Options : OptionsMap)
    (sup : Supervised)
    (h : supervise self.callback_seconds self.callback_func run.observed 0 = some sup) :
    go_think run self Options =
      some { Options :=
               Store.assign_all
                 (Store.assign_all (go_think_start run self Options).Options run.worker_writes)
                 Options,
             trace := (go_think_start run self Options).trace ++ sup.events ++
               (List.range (go_think_start run self Options).thread_num).map Event.join ++
               Options.map (fun s => Event.assign s.1 s.2) } := by
  have h1 : supervise (go_think_start run self Options).self.callback_seconds
      (go_think_start run self Options).self.callback_func run.observed 0 = some sup := h
  unfold go_think
  simp only [h1]
  rfl

theorem go_think_some (run : Run) (self : MultiThink) (Options : OptionsMap) (r : Finished)
    (h : go_think run self Options = some r) :
    ∃ sup, supervise self.callback_seconds self.callback_func run.observed 0 = some sup ∧
      r.Options =
        Store.assign_all
          (Store.assign_all (go_think_start run self Options).Options run.worker_writes)
          Options ∧
      r.trace = (go_think_start run self Options).trace ++ sup.events ++
        (List.range (go_think_start run self Options).thread_num).map Event.join ++
        Options.map (fun s => Event.assign s.1 s.2) := by
  cases hs : supervise self.callback_seconds self.callback_func run.observed 0 with
  | none =>
    have h1 : supervise (go_think_start run self Options).self.callback_seconds
        (go_think_start run self Options).self.callback_func run.observed 0 = none := hs
    unfold go_think at h
    simp only [h1] at h
    exact absurd h (by simp)
  | some sup =>
    rw [go_think_of_supervise run self Options sup hs] at h
    have h2 := (Option.some.inj h).symm
    subst h2
    exact ⟨sup, rfl, rfl, rfl⟩

theorem count_callback_outside_loop (run : Run) (self : MultiThink) (Options : OptionsMap) :
    (go_think_start run self Options).trace.count Event.callback = 0 ∧
    ((List.range (go_think_start run self Options).thread_num).map Event.join).count
      Event.callback = 0 ∧
    (Options.map (fun s => Event.assign s.1 s.2)).count Event.callback = 0 := by
  refine ⟨?_, ?_, ?_⟩
  · apply List.count_eq_zero_of_not_mem
    intro hmem
    simp only [go_think_start, List.mem_append, List.mem_cons, List.mem_singleton] at hmem
    rcases hmem with h | h
    · simp at h
    · obtain ⟨j, _, _, h1 | h1⟩ := mem_spawn_loop _ _ _ _ h <;> simp at h1
  · apply List.count_eq_zero_of_not_mem
    simp
  · apply List.count_eq_zero_of_not_mem
    simp

/-- C5: with callback interval `c = callback_seconds >= 1` and a callback registered, if
`threads_done` is false at the first `k` checks and true at check `k + 1`, the
supervision loop ends at check `k + 1` (the later observations stay unread)
after `k` sleeps and exactly `k / c` invocations of `callback_func`, with tick
counter `k mod c`; the whole run of `go_think` invokes the callback `k / c`
times; for `c = 2` that is at least once when `k >= 2` and never when `k <= 1`. -/
theorem callback_fires_every_interval (c k : Nat) (pre : List (List Nat)) (last : List Nat)
    (rest : List (List Nat)) (hc : 1 ≤ c) (hc64 : c < 2 ^ 64) (hk : pre.length = k)
    (hpre : ∀ f ∈ pre, threads_done f = false) (hlast : threads_done last = true) :
    (∃ ev, supervise c true (pre ++ last :: rest) 0 =
        some { events := ev, i := k % c, unread := rest } ∧
      ev.count Event.callback = k / c ∧
      ev.count (Event.sleep 1000) = k ∧
      (c = 2 → 2 ≤ k → 1 ≤ ev.count Event.callback) ∧
      (c = 2 → k ≤ 1 → ev.count Event.callback = 0)) ∧
    (∀ (run : Run) (self : MultiThink) (Options : OptionsMap),
      self.callback_seconds = c → self.callback_func = true →
      run.observed = pre ++ last :: rest →
      ∃ r, go_think run self Options = some r ∧ r.trace.count Event.callback = k / c) := by
  obtain ⟨ev, hrun, hcb, hsl⟩ := supervise_ticks c true last rest hc hc64 hlast pre 0 (by omega) hpre
  rw [Nat.zero_add, hk] at hrun hcb
  simp only [if_true] at hcb
  constructor
  · refine ⟨ev, hrun, hcb, by rw [hsl, hk], ?_, ?_⟩
    · intro h2 h
      subst h2
      rw [hcb]
      omega
    · intro h2 h
      subst h2
      rw [hcb]
      omega
  · intro run self Options h1 h2 h3
    have hs : supervise self.callback_seconds self.callback_func run.observed 0 =
        some { events := ev, i := k % c, unread := rest } := by
      rw [h1, h2, h3]; exact hrun
    refine ⟨_, go_think_of_supervise run self Options _ hs, ?_⟩
    obtain ⟨e1, e2, e3⟩ := count_callback_outside_loop run self Options
    simp only [List.count_append, e1, e2, e3, hcb]
    omega

/-- Witness for C5: two worker threads, interval 2, both flags set at the fourth check. -/
theorem callback_fires_every_interval_witness :
    ∃ ev, supervise 2 true ([[0, 0], [1, 0], [1, 0]] ++ [1, 1] :: []) 0 =
        some { events := ev, i := 3 % 2, unread := [] } ∧
      ev.count Event.callback = 3 / 2 ∧
      ev.count (Event.sleep 1000) = 3 ∧
      (2 = 2 → 2 ≤ 3 → 1 ≤ ev.count Event.callback) ∧
      (2 = 2 → 3 ≤ 1 → ev.count Event.callback = 0) :=
  (callback_fires_every_interval 2 3 [[0, 0], [1, 0], [1, 0]] [1, 1] [] (by decide) (by decide)
    (by decide) (by decide) (by decide)).1

/-! ### Snapshot and restore of the configuration store -/

theorem value_assign (o : OptionsMap) (key : String) (v : String) (k : String) :
    Store.value (Store.assign o key v) k = if key = k then some v else Store.value o k := by
  induction o with
  | nil => simp [Store.assign, Store.value]
  | cons p rest ih =>
    obtain ⟨k1, w⟩ := p
    by_cases h1 : k1 = key
    · subst h1
      by_cases hk : k1 = k <;> simp [Store.assign, Store.value, hk]
    · by_cases h2 : k1 = k
      · subst h2
        simp [Store.assign, Store.value, h1, Ne.symm h1]
      · by_cases h3 : key = k
        · subst h3
          simp [Store.assign, Store.value, h1, ih]
        · simp [Store.assign, Store.value, h1, h2, h3, ih]

theorem value_eq_none_iff (o : OptionsMap) (k : String) :
    Store.value o k = none ↔ k ∉ Store.keys o := by
  induction o with
  | nil => simp [Store.value, Store.keys]
  | cons p rest ih =>
    obtain ⟨k1, w⟩ := p
    by_cases h : k1 = k
    · simp [Store.value, Store.keys, h]
    · simp only [Store.keys] at ih
      simp [Store.value, Store.keys, h, ih, Ne.symm h]

theorem value_assign_all_eq_none (ws : List (String × String)) :
    ∀ (o : OptionsMap) (k : String),
      Store.value (Store.assign_all o ws) k = none ↔
        Store.value o k = none ∧ k ∉ ws.map Prod.fst := by
  induction ws with
  | nil => intro o k; simp [Store.assign_all]
  | cons w ws ih =>
    intro o k
    have h := ih (Store.assign o w.1 w.2) k
    simp only [Store.assign_all, List.foldl_cons] at h ⊢
    rw [h, value_assign]
    by_cases hk : w.1 = k
    · simp [hk]
    · simp [hk, Ne.symm hk]

theorem value_restore (old : OptionsMap) :
    ∀ (cur : OptionsMap) (k : String), (Store.keys old).Nodup →
      Store.value (Store.assign_all cur old) k =
        if k ∈ Store.keys old then Store.value old k else Store.value cur k := by
  induction old with
  | nil => intro cur k _; simp [Store.assign_all, Store.keys]
  | cons p rest ih =>
    intro cur k hnd
    obtain ⟨k1, w⟩ := p
    simp only [Store.keys, List.map_cons, List.nodup_cons] at hnd
    have h := ih (Store.assign cur k1 w) k hnd.2
    simp only [Store.assign_all, List.foldl_cons] at h ⊢
    rw [h, value_assign]
    by_cases hk : k1 = k
    · subst hk
      have hnot : k1 ∉ Store.keys rest := hnd.1
      have hin : k1 ∈ Store.keys ((k1, w) :: rest) := by simp [Store.keys]
      rw [if_neg hnot, if_pos rfl, if_pos hin]
      simp [Store.value]
    · have hmem : k ∈ Store.keys ((k1, w) :: rest) ↔ k ∈ Store.keys rest := by
        simp [Store.keys, Ne.symm hk]
      have hval : Store.value ((k1, w) :: rest) k = Store.value rest k := by
        simp [Store.value, hk]
      rw [if_neg hk, hval]
      by_cases hin : k ∈ Store.keys rest
      · rw [if_pos hin, if_pos (hmem.mpr hin)]
      · rw [if_neg hin, if_neg (fun h => hin (hmem.mp h))]

theorem supervise_returns (c : Nat) (cb : Bool) (obs : List (List Nat))
    (h : ∃ f ∈ obs, threads_done f = true) :
    ∀ i, ∃ sup, supervise c cb obs i = some sup := by
  induction obs with
  | nil => obtain ⟨f, hf, _⟩ := h; simp at hf
  | cons flags rest ih =>
    intro i
    rw [supervise]
    by_cases hd : threads_done flags = true
    · rw [if_pos hd]
      exact ⟨_, rfl⟩
    · rw [if_neg hd]
      have hrest : ∃ f ∈ rest, threads_done f = true := by
        obtain ⟨f, hf, hdone⟩ := h
        rcases List.mem_cons.mp hf with rfl | hf
        · exact absurd hdone hd
        · exact ⟨f, hf, hdone⟩
      by_cases hi : (i + 1) % 2 ^ 64 = c
      · obtain ⟨sup, hs⟩ := ih hrest 0
        simp only [hi, if_true, hs]
        exact ⟨_, rfl⟩
      · obtain ⟨sup, hs⟩ := ih hrest ((i + 1) % 2 ^ 64)
        simp only [hi, if_false, hs]
        exact ⟨_, rfl⟩

theorem supervise_none (c : Nat) (cb : Bool) (obs : List (List Nat))
    (h : ∀ f ∈ obs, threads_done f = false) :
    ∀ i, supervise c cb obs i = none := by
  induction obs with
  | nil => intro i; rfl
  | cons flags rest ih =>
    intro i
    have hf : threads_done flags = false := h flags (by simp)
    have hrest : ∀ f ∈ rest, threads_done f = false := fun f hf => h f (by simp [hf])
    rw [supervise]
    simp [hf, ih hrest]

theorem go_think_returns (run : Run) (self : MultiThink) (Options : OptionsMap)
    (h : ∃ f ∈ run.observed, threads_done f = true) :
    ∃ r, go_think run self Options = some r := by
  obtain ⟨sup, hs⟩ := supervise_returns self.callback_seconds self.callback_func run.observed h 0
  exact ⟨_, go_think_of_supervise run self Options sup hs⟩

/-- C6, as stated, fails: a store that has the entry `Threads` only gets the entry
`BookOnTheFly` from the write at line 22, and the restore loop, which rewrites
the keys of the snapshot, leaves that entry in the store. -/
theorem restore_leaves_added_key :
    (go_think { to_size := fun _ => 1, setup_writes := [], worker_writes := [],
                observed := [[1]] }
        (set_loop_max (MultiThink.new 0 0) 10) [("Threads", "1")]).map Finished.Options =
      some [("Threads", "1"), ("BookOnTheFly", "false")] ∧
    Store.value [("Threads", "1"), ("BookOnTheFly", "false")] "BookOnTheFly" = some "false" ∧
    Store.value [("Threads", "1")] "BookOnTheFly" = none := by
  decide

/-- C6, amended: for every configuration store at entry to `go_think` (with keys that are
pairwise distinct) and whatever writes are made during the run, after the
restore loop every key that the store had at entry is a key of the store and
has its pre-run value; and `go_think` gets to that point as soon as one check
finds all threads finished.  (Keys that the store did not have at entry can be
in it afterwards, so the set of keys need not be the same.) -/
theorem restore_rewrites_snapshot_keys (run : Run) (self : MultiThink) (Options : OptionsMap)
    (hkeys : (Store.keys Options).Nodup) :
    (∀ r, go_think run self Options = some r →
      ∀ k ∈ Store.keys Options,
        Store.value r.Options k = Store.value Options k ∧ k ∈ Store.keys r.Options) ∧
    ((∃ f ∈ run.observed, threads_done f = true) →
      ∃ r, go_think run self Options = some r ∧
        ∀ k ∈ Store.keys Options,
          Store.value r.Options k = Store.value Options k ∧ k ∈ Store.keys r.Options) := by
  have hall : ∀ r, go_think run self Options = some r →
      ∀ k ∈ Store.keys Options,
        Store.value r.Options k = Store.value Options k ∧ k ∈ Store.keys r.Options := by
    intro r hrun k hk
    obtain ⟨sup, _, hopt, _⟩ := go_think_some run self Options r hrun
    have hval : Store.value r.Options k = Store.value Options k := by
      rw [hopt, value_restore Options _ k hkeys, if_pos hk]
    refine ⟨hval, ?_⟩
    by_contra hnot
    have h1 : Store.value r.Options k = none := (value_eq_none_iff r.Options k).mpr hnot
    rw [hval] at h1
    exact (value_eq_none_iff Options k).mp h1 hk
  refine ⟨hall, fun hdone => ?_⟩
  obtain ⟨r, hr⟩ := go_think_returns run self Options hdone
  exact ⟨r, hr, hall r hr⟩

/-- Witness for C6: a store with two entries, a worker that overwrites one of them and
adds a third; the overwritten entry has its old value after the run. -/
theorem restore_rewrites_snapshot_keys_witness :
    Store.value [("Threads", "1"), ("Hash", "16"), ("BookOnTheFly", "false"), ("Depth", "3")]
        "Hash" =
      Store.value [("Threads", "1"), ("Hash", "16")] "Hash" :=
  ((restore_rewrites_snapshot_keys
    { to_size := fun _ => 1, setup_writes := [],
      worker_writes := [("Hash", "1024"), ("Depth", "3")], observed := [[1]] }
    (set_loop_max (MultiThink.new 0 0) 10) [("Threads", "1"), ("Hash", "16")]
    (by decide)).1
    { Options := [("Threads", "1"), ("Hash", "16"), ("BookOnTheFly", "false"), ("Depth", "3")],
      trace := [Event.assign "BookOnTheFly" "false", Event.is_ready, Event.init,
        Event.clear_flag 0, Event.spawn 0 (thread_body 0), Event.join 0,
        Event.assign "Threads" "1", Event.assign "Hash" "16"] }
    (by rfl) "Hash" (by decide)).1

/-! ### get_done_count -/

theorem get_done_count_of_lt (s : MultiThink) (h : s.done_count + 1 < 2 ^ 64) :
    get_done_count s = (s.done_count + 1, { s with done_count := s.done_count + 1 }) := by
  unfold get_done_count
  simp only [Nat.mod_eq_of_lt h]

theorem returned_done_calls (callers : List Nat) :
    ∀ s : MultiThink, s.done_count + callers.length < 2 ^ 64 →
      returned (done_calls callers s).1 = List.range' (s.done_count + 1) callers.length := by
  induction callers with
  | nil => intro s _; simp [done_calls, returned]
  | cons t ts ih =>
    intro s h
    rw [List.length_cons] at h
    have hs := ih { s with done_count := s.done_count + 1 } (by simp only; omega)
    simp only [returned] at hs ⊢
    simp only [done_calls, get_done_count_of_lt s (by omega), List.map_cons, hs,
      List.length_cons, List.range'_succ]

/-- C7, as stated, fails: from `done_count = 2 ^ 64 - 2` the first call of `get_done_count`
returns `2 ^ 64 - 1` and the second one returns `0`, which is smaller. -/
theorem get_done_count_wraps_around :
    returned (done_calls [0, 1] (MultiThink.new 10 (2 ^ 64 - 2))).1 = [2 ^ 64 - 1, 0] := by
  decide

/-- C7, amended: for every starting value `d` of `done_count` and every sequence of `n`
calls to `get_done_count` with `d + n < 2 ^ 64`, whoever the callers are, the
k-th call returns `d + k`; each call returns a value strictly greater than the
one before, and no two calls return the same value. -/
theorem get_done_count_strictly_increasing (s : MultiThink) (callers : List Nat)
    (h : s.done_count + callers.length < 2 ^ 64) :
    returned (done_calls callers s).1 = List.range' (s.done_count + 1) callers.length ∧
    (returned (done_calls callers s).1).Pairwise (fun a b => a < b) ∧
    (returned (done_calls callers s).1).Nodup := by
  have hret := returned_done_calls callers s h
  rw [hret]
  exact ⟨rfl, List.pairwise_lt_range' _ _, List.nodup_range' _ _⟩

/-- Witness for C7: three calls after the reset of `go_think`, from two threads. -/
theorem get_done_count_strictly_increasing_witness :
    returned (done_calls [1, 0, 1] (MultiThink.new 10 0)).1 = List.range' (0 + 1) 3 :=
  (get_done_count_strictly_increasing (MultiThink.new 10 0) [1, 0, 1] (by decide)).1

/-! ### The hooks called by go_think -/

theorem mem_supervise_events (c : Nat) (cb : Bool) (obs : List (List Nat)) :
    ∀ (i : Nat) (sup : Supervised), supervise c cb obs i = some sup →
      ∀ e ∈ sup.events, e = Event.sleep 1000 ∨ e = Event.callback := by
  induction obs with
  | nil => intro i sup h; simp [supervise] at h
  | cons flags rest ih =>
    intro i sup h e he
    rw [supervise] at h
    by_cases hd : threads_done flags = true
    · rw [if_pos hd] at h
      have h1 := (Option.some.inj h).symm
      subst h1
      simp at he
    · rw [if_neg hd] at h
      by_cases hi : (i + 1) % 2 ^ 64 = c
      · simp only [hi, if_true] at h
        cases hs : supervise c cb rest 0 with
        | none => rw [hs] at h; simp at h
        | some r =>
          rw [hs] at h
          have h1 := (Option.some.inj h).symm
          subst h1
          simp only [List.mem_cons, List.mem_append] at he
          rcases he with he | he | he
          · exact Or.inl he
          · cases cb <;> simp [do_a_callback] at he
            exact Or.inr he
          · exact ih 0 r hs e he
      · simp only [hi, if_false] at h
        cases hs : supervise c cb rest ((i + 1) % 2 ^ 64) with
        | none => rw [hs] at h; simp at h
        | some r =>
          rw [hs] at h
          have h1 := (Option.some.inj h).symm
          subst h1
          simp only [List.mem_cons] at he
          rcases he with he | he
          · exact Or.inl he
          · exact ih _ r hs e he

theorem worker_calls_eq_nil (l : List Event) (h : ∀ e ∈ l, ∀ i body, e ≠ Event.spawn i body) :
    worker_calls l = [] := by
  induction l with
  | nil => simp [worker_calls]
  | cons e es ih =>
    have hes : worker_calls es = [] := ih (fun x hx => h x (by simp [hx]))
    cases e with
    | spawn i body => exact absurd rfl (h _ (by simp) i body)
    | _ => simpa [worker_calls] using hes

theorem go_think_start_trace (run : Run) (self : MultiThink) (Options : OptionsMap) :
    (go_think_start run self Options).trace =
      [Event.assign "BookOnTheFly" "false", Event.is_ready, Event.init] ++
        (List.range (go_think_start run self Options).thread_num).flatMap
          (fun i => [Event.clear_flag i, Event.spawn i (thread_body i)]) := by
  simp only [go_think_start, spawn_loop_events, List.range_eq_range']

theorem go_think_tail (run : Run) (self : MultiThink) (Options : OptionsMap) (r : Finished)
    (h : go_think run self Options = some r) :
    ∃ rest, r.trace = (go_think_start run self Options).trace ++ rest ∧
      Event.init ∉ rest ∧ ∀ e ∈ rest, ∀ i body, e ≠ Event.spawn i body := by
  obtain ⟨sup, hsup, _, htrace⟩ := go_think_some run self Options r h
  have hmem := mem_supervise_events _ _ _ _ sup hsup
  refine ⟨sup.events ++
    (List.range (go_think_start run self Options).thread_num).map Event.join ++
    Options.map (fun s => Event.assign s.1 s.2), ?_, ?_, ?_⟩
  · rw [htrace]; simp [List.append_assoc]
  · intro hin
    simp only [List.mem_append, List.mem_map] at hin
    rcases hin with (hin | ⟨_, _, hin⟩) | ⟨_, _, hin⟩
    · rcases hmem _ hin with h1 | h1 <;> simp at h1
    · simp at hin
    · simp at hin
  · intro e hin i body heq
    subst heq
    simp only [List.mem_append, List.mem_map] at hin
    rcases hin with (hin | ⟨_, _, hin⟩) | ⟨_, _, hin⟩
    · rcases hmem _ hin with h1 | h1 <;> simp at h1
    · simp at hin
    · simp at hin

theorem go_think_start_counts (run : Run) (self : MultiThink) (Options : OptionsMap) :
    (go_think_start run self Options).trace.count Event.init = 1 ∧
    worker_calls (go_think_start run self Options).trace =
      List.range (go_think_start run self Options).thread_num := by
  constructor
  · have h0 : List.count Event.init
        (spawn_loop (go_think_start run self Options).thread_num 0
          (resize self.thread_finished (go_think_start run self Options).thread_num)).2 = 0 := by
      apply List.count_eq_zero_of_not_mem
      intro hmem
      obtain ⟨j, _, _, h1 | h1⟩ := mem_spawn_loop _ _ _ _ hmem <;> simp at h1
    have h1 : (go_think_start run self Options).trace =
        [Event.assign "BookOnTheFly" "false", Event.is_ready, Event.init] ++
          (spawn_loop (go_think_start run self Options).thread_num 0
            (resize self.thread_finished (go_think_start run self Options).thread_num)).2 := rfl
    rw [h1, List.count_append, h0]
    decide
  · have h1 : (go_think_start run self Options).trace =
        [Event.assign "BookOnTheFly" "false", Event.is_ready, Event.init] ++
          (spawn_loop (go_think_start run self Options).thread_num 0
            (resize self.thread_finished (go_think_start run self Options).thread_num)).2 := rfl
    rw [h1, worker_calls_append, worker_calls_spawn_loop, List.range_eq_range']
    simp [worker_calls]

/-- C10: in every run of `go_think`, with `N` the thread count read from the entry
`Threads` after `init()`, the events up to the end of the spawn loop are the
`BookOnTheFly` write, `is_ready`, `init`, and then for `i = 0, ..., N - 1` the
reset of `thread_finished[i]` followed by the start of thread `i`, whose body
calls `thread_worker(i)`; so `init` is called once and before every thread,
`thread_worker` is called once for each index below `N` and for no other, there
are `N` flags, all zero; and the rest of a run that returns adds no call of
`init` and no thread. -/
theorem go_think_hook_calls (run : Run) (self : MultiThink) (Options : OptionsMap) :
    (go_think_start run self Options).thread_num =
      run.to_size
        (Store.value
          (Store.assign_all (Store.assign Options "BookOnTheFly" "false") run.setup_writes)
          "Threads") ∧
    (go_think_start run self Options).trace =
      [Event.assign "BookOnTheFly" "false", Event.is_ready, Event.init] ++
        (List.range (go_think_start run self Options).thread_num).flatMap
          (fun i => [Event.clear_flag i, Event.spawn i (thread_body i)]) ∧
    (go_think_start run self Options).trace.count Event.init = 1 ∧
    worker_calls (go_think_start run self Options).trace =
      List.range (go_think_start run self Options).thread_num ∧
    (go_think_start run self Options).self.thread_finished =
      List.replicate (go_think_start run self Options).thread_num 0 ∧
    (∀ r, go_think run self Options = some r →
      r.trace.count Event.init = 1 ∧
      worker_calls r.trace = List.range (go_think_start run self Options).thread_num ∧
      ∃ rest, r.trace = (go_think_start run self Options).trace ++ rest) := by
  obtain ⟨hinit, hworkers⟩ := go_think_start_counts run self Options
  refine ⟨rfl, go_think_start_trace run self Options, hinit, hworkers, ?_, ?_⟩
  · exact spawn_loop_clears self.thread_finished _
  · intro r hr
    obtain ⟨rest, htrace, hnoinit, hnospawn⟩ := go_think_tail run self Options r hr
    refine ⟨?_, ?_, rest, htrace⟩
    · rw [htrace, List.count_append, hinit, List.count_eq_zero_of_not_mem hnoinit]
    · rw [htrace, worker_calls_append, hworkers, worker_calls_eq_nil rest hnospawn,
        List.append_nil]

/-- Witness for C10: a run with two threads that are both finished at the second check. -/
theorem go_think_hook_calls_witness :
    List.count Event.init
        [Event.assign "BookOnTheFly" "false", Event.is_ready, Event.init,
          Event.clear_flag 0, Event.spawn 0 (thread_body 0),
          Event.clear_flag 1, Event.spawn 1 (thread_body 1),
          Event.sleep 1000, Event.join 0, Event.join 1, Event.assign "Threads" "2"] = 1 ∧
    worker_calls
        [Event.assign "BookOnTheFly" "false", Event.is_ready, Event.init,
          Event.clear_flag 0, Event.spawn 0 (thread_body 0),
          Event.clear_flag 1, Event.spawn 1 (thread_body 1),
          Event.sleep 1000, Event.join 0, Event.join 1, Event.assign "Threads" "2"] =
      List.range 2 :=
  let h := (go_think_hook_calls
    { to_size := fun _ => 2, setup_writes := [], worker_writes := [],
      observed := [[1, 0], [1, 1]] }
    (set_loop_max (MultiThink.new 0 0) 10) [("Threads", "2")]).2.2.2.2.2
    { Options := [("Threads", "2"), ("BookOnTheFly", "false")],
      trace := [Event.assign "BookOnTheFly" "false", Event.is_ready, Event.init,
        Event.clear_flag 0, Event.spawn 0 (thread_body 0),
        Event.clear_flag 1, Event.spawn 1 (thread_body 1),
        Event.sleep 1000, Event.join 0, Event.join 1, Event.assign "Threads" "2"] }
    (by rfl)
  ⟨h.1, h.2.1⟩

/-- C9, as stated, fails: on an object fresh from the constructor, on which `set_loop_max`
was never called, `go_think` with one thread reports nothing: it starts the
thread, which calls `thread_worker(0)`, and ends as any other run. -/
theorem go_think_runs_without_loop_max :
    (go_think { to_size := fun _ => 1, setup_writes := [], worker_writes := [],
                observed := [[0], [1]] }
        (MultiThink.new 12345 0) [("Threads", "1")]).map Finished.trace =
      some [Event.assign "BookOnTheFly" "false", Event.is_ready, Event.init,
        Event.clear_flag 0,
        Event.spawn 0
          [ThreadStep.bindThisThread 0, ThreadStep.thread_worker 0, ThreadStep.set_finished 0],
        Event.sleep 1000, Event.join 0, Event.assign "Threads" "1"] := by
  decide

/-- C9, amended: `go_think` called on a `MultiThink` whose loop bound was never set does not
fail fast, for it makes no check of `loop_max`: whatever value `loop_max` holds,
`go_think` calls `init` once and then starts a thread for every index below the
thread count, each of them calling `thread_worker(i)`; it leaves `loop_max` as
it was; and it returns as soon as one check finds all threads finished, the
whole run then holding one call of `init` and the call `thread_worker(i)` for
every index below the thread count; the only runs it does not return from are
those in which no check finds all threads finished. -/
theorem go_think_ignores_loop_max (run : Run) (self : MultiThink) (Options : OptionsMap) :
    (go_think_start run self Options).trace =
      [Event.assign "BookOnTheFly" "false", Event.is_ready, Event.init] ++
        (List.range (go_think_start run self Options).thread_num).flatMap
          (fun i => [Event.clear_flag i, Event.spawn i (thread_body i)]) ∧
    (go_think_start run self Options).trace.count Event.init = 1 ∧
    worker_calls (go_think_start run self Options).trace =
      List.range (go_think_start run self Options).thread_num ∧
    (go_think_start run self Options).self.loop_max = self.loop_max ∧
    (∀ m d : Nat,
      worker_calls (go_think_start run (MultiThink.new m d) Options).trace =
        List.range (go_think_start run (MultiThink.new m d) Options).thread_num) ∧
    ((∃ f ∈ run.observed, threads_done f = true) →
      ∃ r, go_think run self Options = some r ∧
        r.trace.count Event.init = 1 ∧
        worker_calls r.trace = List.range (go_think_start run self Options).thread_num) ∧
    (go_think run self Options = none ↔ ∀ f ∈ run.observed, threads_done f = false) := by
  obtain ⟨hinit, hworkers⟩ := go_think_start_counts run self Options
  refine ⟨go_think_start_trace run self Options, hinit, hworkers, rfl,
    fun m d => (go_think_start_counts run (MultiThink.new m d) Options).2, fun hdone => ?_,
    ?_, ?_⟩
  · obtain ⟨r, hr⟩ := go_think_returns run self Options hdone
    obtain ⟨rest, htrace, hnoinit, hnospawn⟩ := go_think_tail run self Options r hr
    refine ⟨r, hr, ?_, ?_⟩
    · rw [htrace, List.count_append, hinit, List.count_eq_zero_of_not_mem hnoinit]
    · rw [htrace, worker_calls_append, hworkers, worker_calls_eq_nil rest hnospawn,
        List.append_nil]
  · intro hnone f hf
    cases hd : threads_done f with
    | false => rfl
    | true =>
      obtain ⟨r, hr⟩ := go_think_returns run self Options ⟨f, hf, hd⟩
      rw [hnone] at hr
      exact absurd hr (by simp)
  · intro hall
    have hs := supervise_none self.callback_seconds self.callback_func run.observed hall 0
    have h1 : supervise (go_think_start run self Options).self.callback_seconds
        (go_think_start run self Options).self.callback_func run.observed 0 = none := hs
    unfold go_think
    simp only [h1]

/-- Witness for C9: an object fresh from the constructor, one thread, finished at the
second check. -/
theorem go_think_ignores_loop_max_witness :
    ∃ r, go_think { to_size := fun _ => 1, setup_writes := [], worker_writes := [],
                    observed := [[0], [1]] }
        (MultiThink.new 12345 0) [("Threads", "1")] = some r ∧
      r.trace.count Event.init = 1 ∧ worker_calls r.trace = List.range 1 :=
  (go_think_ignores_loop_max
    { to_size := fun _ => 1, setup_writes := [], worker_writes := [], observed := [[0], [1]] }
    (MultiThink.new 12345 0) [("Threads", "1")]).2.2.2.2.2.1 ⟨[1], by decide, by decide⟩

/-! ### Further properties of the counters and of the supervision loop -/

/-- C11: for every state, `get_done_count` stores the old `done_count` plus one, modulo
`2 ^ 64`, and returns that new value; `loop_count`, `loop_max` and the other
fields stay as they are and the returned value is the same whatever
`loop_count` and `loop_max` hold; on the state that `go_think` leaves after its
counter reset the call returns 1. -/
theorem get_done_count_increments (s : MultiThink) :
    (get_done_count s).1 = (s.done_count + 1) % 2 ^ 64 ∧
    (get_done_count s).2 = { s with done_count := (s.done_count + 1) % 2 ^ 64 } ∧
    (get_done_count s).2.done_count = (get_done_count s).1 ∧
    (get_done_count s).2.loop_count = s.loop_count ∧
    (get_done_count s).2.loop_max = s.loop_max ∧
    (∀ a b : Nat,
      (get_done_count { s with loop_count := a, loop_max := b }).1 = (get_done_count s).1) ∧
    (∀ (run : Run) (Options : OptionsMap),
      (go_think_start run s Options).self.done_count = 0 ∧
      (get_done_count (go_think_start run s Options).self).1 = 1) := by
  refine ⟨rfl, rfl, rfl, rfl, rfl, fun _ _ => rfl, fun _ _ => ⟨rfl, ?_⟩⟩
  show (0 + 1) % 2 ^ 64 = 1
  decide

/-- C17: `threads_done` is true exactly when every entry of `thread_finished` is non-zero,
so it is true on the empty vector of a run with zero threads; and whenever it
is true at the first check, the supervision loop ends there with no event at
all, no sleep and no callback, whatever the callback interval and the tick
counter, and the run of `go_think` contains no sleep and no callback. -/
theorem threads_done_ends_loop_at_once (flags : List Nat) :
    (threads_done flags = true ↔ ∀ f ∈ flags, f ≠ 0) ∧
    threads_done [] = true ∧
    (∀ (run : Run) (self : MultiThink) (Options : OptionsMap),
      (go_think_start run self Options).thread_num = 0 →
      (go_think_start run self Options).self.thread_finished = []) ∧
    (∀ (c i : Nat) (cb : Bool) (rest : List (List Nat)), threads_done flags = true →
      supervise c cb (flags :: rest) i = some { events := [], i := i, unread := rest }) ∧
    (∀ (run : Run) (self : MultiThink) (Options : OptionsMap) (rest : List (List Nat)),
      threads_done flags = true → run.observed = flags :: rest →
      ∃ r, go_think run self Options = some r ∧
        (∀ ms, Event.sleep ms ∉ r.trace) ∧ Event.callback ∉ r.trace) := by
  have hiff : threads_done flags = true ↔ ∀ f ∈ flags, f ≠ 0 := by
    induction flags with
    | nil => simp [threads_done]
    | cons f fs ih =>
      by_cases hf : f = 0
      · simp [threads_done, hf]
      · simp [threads_done, hf, ih]
  have hloop : ∀ (c i : Nat) (cb : Bool) (rest : List (List Nat)), threads_done flags = true →
      supervise c cb (flags :: rest) i = some { events := [], i := i, unread := rest } := by
    intro c i cb rest h
    rw [supervise, if_pos h]
  refine ⟨hiff, rfl, ?_, hloop, ?_⟩
  · intro run self Options h0
    have h := spawn_loop_clears self.thread_finished (go_think_start run self Options).thread_num
    rw [h0] at h
    have e : (go_think_start run self Options).self.thread_finished =
        (spawn_loop (go_think_start run self Options).thread_num 0
          (resize self.thread_finished (go_think_start run self Options).thread_num)).1 := rfl
    rw [e, h0, h]
    rfl
  · intro run self Options rest hdone hobs
    have hs : supervise self.callback_seconds self.callback_func run.observed 0 =
        some { events := [], i := 0, unread := rest } := by
      rw [hobs]; exact hloop _ _ _ _ hdone
    refine ⟨_, go_think_of_supervise run self Options _ hs, ?_, ?_⟩
    · intro ms hin
      simp only [List.append_nil, List.mem_append, List.mem_map] at hin
      rcases hin with (hin | ⟨_, _, hin⟩) | ⟨_, _, hin⟩
      · rw [go_think_start_trace] at hin
        simp at hin
      · simp at hin
      · simp at hin
    · intro hin
      simp only [List.append_nil, List.mem_append, List.mem_map] at hin
      rcases hin with (hin | ⟨_, _, hin⟩) | ⟨_, _, hin⟩
      · rw [go_think_start_trace] at hin
        simp at hin
      · simp at hin
      · simp at hin

/-- Witness for C17: two threads that have both finished before the first check, with a
callback registered and interval 1. -/
theorem threads_done_ends_loop_at_once_witness :
    supervise 1 true ([1, 1] :: [[1, 1]]) 0 =
      some { events := [], i := 0, unread := [[1, 1]] } :=
  (threads_done_ends_loop_at_once [1, 1]).2.2.2.1 1 0 true [[1, 1]] (by decide)

/-- C18: for every state, a value returned by `get_next_loop_count` is the sentinel
`UINT64_MAX` exactly when `loop_count >= loop_max`; every other returned value
is below `loop_max` and so is not `UINT64_MAX`, also when `loop_max` is
`UINT64_MAX`. -/
theorem next_loop_count_sentinel_is_unambiguous (s : MultiThink) (hmax : s.loop_max < 2 ^ 64) :
    ((get_next_loop_count s).1 = UINT64_MAX ↔ s.loop_count ≥ s.loop_max) ∧
    ((get_next_loop_count s).1 ≠ UINT64_MAX → (get_next_loop_count s).1 < s.loop_max) ∧
    (s.loop_count < s.loop_max →
      (get_next_loop_count s).1 < s.loop_max ∧ (get_next_loop_count s).1 ≠ UINT64_MAX) := by
  by_cases h : s.loop_count ≥ s.loop_max
  · rw [get_next_loop_count_of_ge s h]
    refine ⟨⟨fun _ => h, fun _ => rfl⟩, fun hne => absurd rfl hne, fun hlt => ?_⟩
    omega
  · have hlt : s.loop_count < s.loop_max := by omega
    rw [get_next_loop_count_of_lt s hlt hmax]
    have hne : s.loop_count ≠ UINT64_MAX := by unfold UINT64_MAX; omega
    exact ⟨⟨fun he => absurd he hne, fun hge => absurd hge h⟩, fun _ => hlt, fun _ => ⟨hlt, hne⟩⟩

/-- Witness for C18: the last valid index under the largest bound, `loop_max = UINT64_MAX`. -/
theorem next_loop_count_sentinel_is_unambiguous_witness :
    (get_next_loop_count
        { loop_max := UINT64_MAX, loop_count := UINT64_MAX - 1, done_count := 0,
          callback_seconds := 600, callback_func := false, thread_finished := [] }).1 <
      UINT64_MAX :=
  ((next_loop_count_sentinel_is_unambiguous
    { loop_max := UINT64_MAX, loop_count := UINT64_MAX - 1, done_count := 0,
      callback_seconds := 600, callback_func := false, thread_finished := [] }
    (by decide)).2.2 (by decide)).1

end MultiThinkModel

namespace Features

/-! ## Theorems on the factorizer -/

theorem shift_loop_features (bits : Nat) (F : Factorizer) (index_offset : Nat) (count : Nat) :
    ∀ (i : Nat) (v : List TrainingFeature), i + count = v.length →
      (shift_loop bits F index_offset count i v).1 =
        v.take i ++ (v.drop i).map (fun feature => feature.ShiftIndex bits index_offset) := by
  induction count with
  | zero =>
    intro i v h
    have hi : v.length ≤ i := by omega
    simp [shift_loop, List.drop_eq_nil_of_le hi, List.take_of_length_le hi]
  | succ n ih =>
    intro i v h
    have hi : i < v.length := by omega
    have hget : v[i]? = some v[i] := List.getElem?_eq_getElem hi
    have hdrop : v.drop i = v[i] :: v.drop (i + 1) := List.drop_eq_getElem_cons hi
    rw [shift_loop, hget]
    simp only
    rw [ih (i + 1) _ (by rw [List.length_set]; omega), hdrop, List.map_cons]
    have hset : v.set i (v[i].ShiftIndex bits index_offset) =
        v.take i ++ v[i].ShiftIndex bits index_offset :: v.drop (i + 1) := by
      rw [List.set_eq_take_append_cons_drop, if_pos hi]
    have hlen : (v.take i).length = i := by simp; omega
    have htake : (v.set i (v[i].ShiftIndex bits index_offset)).take (i + 1) =
        v.take i ++ [v[i].ShiftIndex bits index_offset] := by
      rw [hset, List.take_append_eq_append_take, hlen]
      simp [List.take_of_length_le (Nat.le_of_eq hlen) ]
    have hdrop2 : (v.set i (v[i].ShiftIndex bits index_offset)).drop (i + 1) = v.drop (i + 1) := by
      rw [hset, List.drop_append_eq_append_drop, hlen]
      simp [List.drop_eq_nil_of_le (Nat.le_of_lt (Nat.lt_succ_of_le (Nat.le_of_eq hlen)))]
    rw [htake, hdrop2]
    simp

theorem shift_loop_failed (bits : Nat) (F : Factorizer) (index_offset : Nat) (count : Nat) :
    ∀ (i : Nat) (v : List TrainingFeature),
      ∀ a ∈ (shift_loop bits F index_offset count i v).2, a = Assertion.inherit_feature_index := by
  induction count with
  | zero => intro i v a ha; simp [shift_loop] at ha
  | succ n ih =>
    intro i v a ha
    rw [shift_loop] at ha
    cases hget : v[i]? with
    | none => rw [hget] at ha; simp at ha
    | some feature =>
      rw [hget] at ha
      simp only [List.mem_append] at ha
      rcases ha with ha | ha
      · unfold assert_that at ha
        split at ha
        · simp at ha
        · simpa using ha
      · exact ih _ _ a ha

theorem inherit_inactive (bits : Nat) (F : Factorizer) (index_offset : Nat) (properties : FeatureProperties)
    (base_index : Nat) (v : List TrainingFeature) (h : properties.active = false) :
    InheritFeaturesIfRequired bits F index_offset properties base_index v =
      { training_features := v, result := 0, failed := [] } := by
  simp [InheritFeaturesIfRequired, h]

theorem inherit_active (bits : Nat) (F : Factorizer) (index_offset : Nat) (properties : FeatureProperties)
    (base_index : Nat) (v : List TrainingFeature) (h : properties.active = true) :
    (InheritFeaturesIfRequired bits F index_offset properties base_index v).training_features =
      v ++ (F.emitted base_index).map (fun feature => feature.ShiftIndex bits index_offset) ∧
    (InheritFeaturesIfRequired bits F index_offset properties base_index v).result =
      properties.dimensions := by
  have hloop := shift_loop_features bits F index_offset
    ((v ++ F.emitted base_index).length - v.length) v.length (v ++ F.emitted base_index)
    (by simp)
  simp only [InheritFeaturesIfRequired, h, Bool.not_true, Bool.false_eq_true, if_false,
    Factorizer.AppendTrainingFeatures]
  rw [hloop]
  simp

theorem inherit_active_fit (bits : Nat) (F : Factorizer) (index_offset : Nat)
    (properties : FeatureProperties) (base_index : Nat) (v : List TrainingFeature)
    (h : properties.active = true)
    (hfit : ∀ feature ∈ F.emitted base_index, feature.index + index_offset < 2 ^ bits) :
    (InheritFeaturesIfRequired bits F index_offset properties base_index v).training_features =
      v ++ (F.emitted base_index).map (fun feature => { index := feature.index + index_offset }) := by
  rw [(inherit_active bits F index_offset properties base_index v h).1]
  congr 1
  apply List.map_congr_left
  intro feature hf
  simp only [TrainingFeature.ShiftIndex, Nat.mod_eq_of_lt (hfit feature hf)]

theorem inherit_result (bits : Nat) (F : Factorizer) (index_offset : Nat) (properties : FeatureProperties)
    (base_index : Nat) (v : List TrainingFeature) :
    (InheritFeaturesIfRequired bits F index_offset properties base_index v).result =
      SkipFeatures properties := by
  cases h : properties.active with
  | false => rw [inherit_inactive bits F index_offset properties base_index v h]; simp [SkipFeatures, h]
  | true => rw [(inherit_active bits F index_offset properties base_index v h).2]; simp [SkipFeatures, h]

theorem inherit_failed (bits : Nat) (F : Factorizer) (index_offset : Nat) (properties : FeatureProperties)
    (base_index : Nat) (v : List TrainingFeature) :
    Assertion.offset_total ∉
      (InheritFeaturesIfRequired bits F index_offset properties base_index v).failed := by
  cases h : properties.active with
  | false => rw [inherit_inactive bits F index_offset properties base_index v h]; simp
  | true =>
    intro hin
    simp only [InheritFeaturesIfRequired, h, Bool.not_true, Bool.false_eq_true, if_false,
      List.mem_append, List.mem_map] at hin
    rcases hin with ((hin | hin) | ⟨_, _, hin⟩) | hin
    · unfold assert_that at hin
      split at hin <;> simp at hin
    · unfold assert_that at hin
      split at hin <;> simp at hin
    · simp at hin
    · have := shift_loop_failed bits F index_offset _ _ _ _ hin
      simp at this

theorem append_result (c : HalfKP) (kProperties : Properties) (base_index : Nat)
    (v : List TrainingFeature) :
    (c.AppendTrainingFeatures kProperties base_index v).result =
      (((if kProperties.kFeaturesHalfK.active then
            (kProperties.kFeaturesHalfKP.dimensions + kProperties.kFeaturesHalfK.dimensions) %
              2 ^ c.bits
          else kProperties.kFeaturesHalfKP.dimensions) +
          SkipFeatures kProperties.kFeaturesP) % 2 ^ c.bits +
        SkipFeatures kProperties.kFeaturesHalfRelativeKP) % 2 ^ c.bits := by
  simp only [HalfKP.AppendTrainingFeatures, inherit_result, AppendBaseFeature]
  by_cases hp : base_index % c.fe_end ≥ c.fe_hand_end
  · rw [if_pos hp, inherit_result]
  · rw [if_neg hp]

/-- C15: for every `index_offset`, `properties`, `base_index` and feature vector,
`InheritFeaturesIfRequired` returns what `SkipFeatures(properties)` returns:
`properties.dimensions` when `properties.active`, 0 otherwise; so the offset
that `Factorizer<HalfKP>::AppendTrainingFeatures` has accumulated after the
entry of `HalfRelativeKP` is the same for every `base_index`, whichever of the
two calls was made. -/
theorem inherit_returns_what_skip_returns (bits : Nat) (F : Factorizer) (index_offset : Nat)
    (properties : FeatureProperties) (base_index : Nat) (v : List TrainingFeature) :
    (InheritFeaturesIfRequired bits F index_offset properties base_index v).result =
      SkipFeatures properties ∧
    SkipFeatures properties = (if properties.active then properties.dimensions else 0) ∧
    (∀ (c : HalfKP) (kProperties : Properties) (b1 b2 : Nat) (v1 v2 : List TrainingFeature),
      (c.AppendTrainingFeatures kProperties b1 v1).result =
        (c.AppendTrainingFeatures kProperties b2 v2).result) := by
  refine ⟨inherit_result bits F index_offset properties base_index v, rfl, ?_⟩
  intro c kProperties b1 b2 v1 v2
  rw [append_result, append_result]

theorem foldl_active_dimensions (bits : Nat) (rest : List FeatureProperties) :
    ∀ acc : Nat, acc < 2 ^ bits →
      rest.foldl
          (fun dimensions properties =>
            if properties.active then (dimensions + properties.dimensions) % 2 ^ bits
            else dimensions)
          acc =
        (acc + ((rest.filter (fun p => p.active)).map (fun p => p.dimensions)).sum) % 2 ^ bits := by
  induction rest with
  | nil => intro acc h; simp [Nat.mod_eq_of_lt h]
  | cons p ps ih =>
    intro acc h
    have hpos : 0 < 2 ^ bits := Nat.pos_of_ne_zero (by positivity)
    cases hp : p.active with
    | false => simp [hp, ih acc h]
    | true =>
      simp only [List.foldl_cons, hp, if_true, List.filter_cons_of_pos, List.map_cons,
        List.sum_cons]
      rw [ih _ (Nat.mod_lt _ hpos), Nat.mod_add_mod, Nat.add_assoc]

/-- C14, as stated, fails: with `IndexType` 32 bits wide, the array of an element with
dimensions `2 ^ 32 - 1` followed by an active element with dimensions 1 gives 0,
not the sum `2 ^ 32` of the two dimensions. -/
theorem active_dimensions_wrap_around :
    GetActiveDimensions 32
        [{ active := false, dimensions := 2 ^ 32 - 1 }, { active := true, dimensions := 1 }] = 0 ∧
    (2 ^ 32 - 1) +
        ((([{ active := true, dimensions := 1 }] : List FeatureProperties).filter
          (fun p => p.active)).map (fun p => p.dimensions)).sum = 2 ^ 32 := by
  decide

/-- C14, amended: for every non-empty array of `FeatureProperties` whose element 0 has
dimensions that fit `IndexType`, `GetActiveDimensions` returns, modulo
`2 ^ bits`, the dimensions of element 0 (counted whether or not element 0 is
marked active) plus the sum of the dimensions of exactly those elements at
positions 1..N-1 whose active flag is true; that is the sum itself when the sum
fits `IndexType`. -/
theorem active_dimensions_sum (bits : Nat) (first : FeatureProperties)
    (rest : List FeatureProperties) (h0 : first.dimensions < 2 ^ bits) :
    GetActiveDimensions bits (first :: rest) =
      (first.dimensions +
        ((rest.filter (fun p => p.active)).map (fun p => p.dimensions)).sum) % 2 ^ bits ∧
    (first.dimensions +
        ((rest.filter (fun p => p.active)).map (fun p => p.dimensions)).sum < 2 ^ bits →
      GetActiveDimensions bits (first :: rest) =
        first.dimensions +
          ((rest.filter (fun p => p.active)).map (fun p => p.dimensions)).sum) := by
  have h := foldl_active_dimensions bits rest first.dimensions h0
  refine ⟨h, fun hlt => ?_⟩
  rw [← Nat.mod_eq_of_lt hlt]
  exact h

/-- Witness for C14: an array of four entries, the first one not active, the third one
not active. -/
theorem active_dimensions_sum_witness :
    GetActiveDimensions 32
        ({ active := false, dimensions := 41024 } ::
          [{ active := true, dimensions := 64 }, { active := false, dimensions := 641 },
           { active := true, dimensions := 1125 }]) =
      41024 +
        ((([{ active := true, dimensions := 64 }, { active := false, dimensions := 641 },
            { active := true, dimensions := 1125 }] : List FeatureProperties).filter
          (fun p => p.active)).map (fun p => p.dimensions)).sum :=
  (active_dimensions_sum 32 { active := false, dimensions := 41024 }
    [{ active := true, dimensions := 64 }, { active := false, dimensions := 641 },
     { active := true, dimensions := 1125 }] (by decide)).2 (by decide)

theorem assert_that_mem (condition : Bool) (a b : Assertion) (h : b ∈ assert_that condition a) :
    b = a := by
  unfold assert_that at h
  split at h
  · simp at h
  · simpa using h

/-- C12: for every `base_index`, every feature vector and every choice of active flags and
dimensions in the four entries of `kProperties` (dimensions that fit
`IndexType`), the offset that `Factorizer<HalfKP>::AppendTrainingFeatures`
has accumulated at its end equals `GetDimensions()`, which is
`GetActiveDimensions(kProperties)`; the assertion at the end of the function is
not among those that fail. -/
theorem append_offset_is_dimensions (c : HalfKP) (kProperties : Properties) (base_index : Nat)
    (v : List TrainingFeature) (hfit : ∀ p ∈ kProperties.toList, p.dimensions < 2 ^ c.bits) :
    (c.AppendTrainingFeatures kProperties base_index v).result = c.GetDimensions kProperties ∧
    c.GetDimensions kProperties = GetActiveDimensions c.bits kProperties.toList ∧
    Assertion.offset_total ∉ (c.AppendTrainingFeatures kProperties base_index v).failed := by
  have h0 : kProperties.kFeaturesHalfKP.dimensions < 2 ^ c.bits :=
    hfit _ (by simp [Properties.toList])
  have hpos : 0 < 2 ^ c.bits := Nat.pos_of_ne_zero (by positivity)
  have hres : (c.AppendTrainingFeatures kProperties base_index v).result =
      c.GetDimensions kProperties := by
    rw [append_result]
    simp only [HalfKP.GetDimensions, GetActiveDimensions, Properties.toList, List.foldl_cons,
      List.foldl_nil, SkipFeatures]
    cases kProperties.kFeaturesHalfK.active <;> cases kProperties.kFeaturesP.active <;>
      cases kProperties.kFeaturesHalfRelativeKP.active <;>
      simp [Nat.mod_eq_of_lt h0, Nat.mod_mod]
  refine ⟨hres, rfl, ?_⟩
  intro hin
  simp only [HalfKP.AppendTrainingFeatures, List.mem_append] at hin
  rcases hin with ((hin | hin) | hin) | hin
  · simp only [AppendBaseFeature, List.mem_append] at hin
    rcases hin with hin | hin
    · have := assert_that_mem _ _ _ hin; simp at this
    · have := assert_that_mem _ _ _ hin; simp at this
  · exact inherit_failed _ _ _ _ _ _ hin
  · split at hin
    · exact inherit_failed _ _ _ _ _ _ hin
    · simp at hin
  · change Assertion.offset_total ∈ assert_that
      (decide ((c.AppendTrainingFeatures kProperties base_index v).result =
        c.GetDimensions kProperties)) Assertion.offset_total at hin
    rw [hres] at hin
    simp [assert_that] at hin

/-- Witness for C12: widths and dimensions as for chess, with the entry of `P` switched
off, at a base index whose piece part is 0. -/
theorem append_offset_is_dimensions_witness :
    (HalfKP.AppendTrainingFeatures
        { bits := 32, SQUARE_NB := 64, fe_end := 641, fe_hand_end := 1, kDimensions := 41024,
          P := Factorizer.generic 641, HalfRelativeKP := Factorizer.generic 1125,
          MakeIndex := fun sq_k p => sq_k + p }
        { kFeaturesHalfKP := { active := true, dimensions := 41024 },
          kFeaturesHalfK := { active := true, dimensions := 64 },
          kFeaturesP := { active := false, dimensions := 641 },
          kFeaturesHalfRelativeKP := { active := true, dimensions := 1125 } }
        1282 []).result = 41024 + 64 + 1125 :=
  (append_offset_is_dimensions
    { bits := 32, SQUARE_NB := 64, fe_end := 641, fe_hand_end := 1, kDimensions := 41024,
      P := Factorizer.generic 641, HalfRelativeKP := Factorizer.generic 1125,
      MakeIndex := fun sq_k p => sq_k + p }
    { kFeaturesHalfKP := { active := true, dimensions := 41024 },
      kFeaturesHalfK := { active := true, dimensions := 64 },
      kFeaturesP := { active := false, dimensions := 641 },
      kFeaturesHalfRelativeKP := { active := true, dimensions := 1125 } }
    1282 [] (by decide)).1.trans (by decide)

/-- C13: for every `base_index < kDimensions = SQUARE_NB * fe_end`, with the table
`kProperties` of the source (all four entries active), factorizers of `P` and
`HalfRelativeKP` that emit indices below their own dimensions for this index, and dimensions
whose sum fits `IndexType`, `AppendTrainingFeatures` appends the feature
`base_index`, the feature `kDimensions + base_index / fe_end`, the features of
`P` for `p = base_index mod fe_end` shifted by `kDimensions + SQUARE_NB`, and,
only when `p >= fe_hand_end`, the features of `HalfRelativeKP` shifted by
`kDimensions + SQUARE_NB + dim(P)`; each of these indices lies in the block of
its own type and all of them are below `GetDimensions()`, the sum of the four
dimensions. -/
theorem append_features_in_blocks (c : HalfKP) (base_index : Nat) (v : List TrainingFeature)
    (hbase : base_index < c.kDimensions) (hdim : c.kDimensions = c.SQUARE_NB * c.fe_end)
    (hP : ∀ f ∈ c.P.emitted (base_index % c.fe_end), f.index < c.P.GetDimensions)
    (hR : ∀ f ∈ c.HalfRelativeKP.emitted
        (c.MakeIndex (base_index / c.fe_end) (base_index % c.fe_end)),
      f.index < c.HalfRelativeKP.GetDimensions)
    (hfit : c.kDimensions + c.SQUARE_NB + c.P.GetDimensions + c.HalfRelativeKP.GetDimensions <
      2 ^ c.bits) :
    (c.AppendTrainingFeatures c.kProperties base_index v).training_features =
      v ++ [{ index := base_index }, { index := c.kDimensions + base_index / c.fe_end }] ++
        (c.P.emitted (base_index % c.fe_end)).map
          (fun f => { index := f.index + (c.kDimensions + c.SQUARE_NB) }) ++
        (if base_index % c.fe_end ≥ c.fe_hand_end then
          (c.HalfRelativeKP.emitted
            (c.MakeIndex (base_index / c.fe_end) (base_index % c.fe_end))).map
            (fun f => { index := f.index + (c.kDimensions + c.SQUARE_NB + c.P.GetDimensions) })
         else []) ∧
    c.GetDimensions c.kProperties =
      c.kDimensions + c.SQUARE_NB + c.P.GetDimensions + c.HalfRelativeKP.GetDimensions ∧
    base_index < c.kDimensions ∧
    (c.kDimensions ≤ c.kDimensions + base_index / c.fe_end ∧
      c.kDimensions + base_index / c.fe_end < c.kDimensions + c.SQUARE_NB) ∧
    (∀ f ∈ c.P.emitted (base_index % c.fe_end),
      c.kDimensions + c.SQUARE_NB ≤ f.index + (c.kDimensions + c.SQUARE_NB) ∧
      f.index + (c.kDimensions + c.SQUARE_NB) <
        c.kDimensions + c.SQUARE_NB + c.P.GetDimensions) ∧
    (∀ f ∈ c.HalfRelativeKP.emitted
        (c.MakeIndex (base_index / c.fe_end) (base_index % c.fe_end)),
      c.kDimensions + c.SQUARE_NB + c.P.GetDimensions ≤
        f.index + (c.kDimensions + c.SQUARE_NB + c.P.GetDimensions) ∧
      f.index + (c.kDimensions + c.SQUARE_NB + c.P.GetDimensions) <
        c.GetDimensions c.kProperties) ∧
    (∀ f ∈ ((c.AppendTrainingFeatures c.kProperties base_index v).training_features.drop
        v.length),
      f.index < c.GetDimensions c.kProperties) := by
  have hsq : base_index / c.fe_end < c.SQUARE_NB := by
    apply Nat.div_lt_of_lt_mul
    rw [Nat.mul_comm, ← hdim]
    exact hbase
  have hget : c.GetDimensions c.kProperties =
      c.kDimensions + c.SQUARE_NB + c.P.GetDimensions + c.HalfRelativeKP.GetDimensions := by
    have h1 : c.kDimensions + c.SQUARE_NB < 2 ^ c.bits := by omega
    have h2 : c.kDimensions + c.SQUARE_NB + c.P.GetDimensions < 2 ^ c.bits := by omega
    simp [HalfKP.GetDimensions, GetActiveDimensions, Properties.toList, HalfKP.kProperties,
      Nat.mod_eq_of_lt h1, Nat.mod_eq_of_lt h2, Nat.mod_eq_of_lt hfit]
  have hfeat : (c.AppendTrainingFeatures c.kProperties base_index v).training_features =
      v ++ [{ index := base_index }, { index := c.kDimensions + base_index / c.fe_end }] ++
        (c.P.emitted (base_index % c.fe_end)).map
          (fun f => { index := f.index + (c.kDimensions + c.SQUARE_NB) }) ++
        (if base_index % c.fe_end ≥ c.fe_hand_end then
          (c.HalfRelativeKP.emitted
            (c.MakeIndex (base_index / c.fe_end) (base_index % c.fe_end))).map
            (fun f => { index := f.index + (c.kDimensions + c.SQUARE_NB + c.P.GetDimensions) })
         else []) := by
    have h0 : c.kDimensions + base_index / c.fe_end < 2 ^ c.bits := by omega
    have h1 : c.kDimensions + c.SQUARE_NB < 2 ^ c.bits := by omega
    have h2 : c.kDimensions + c.SQUARE_NB + c.P.GetDimensions < 2 ^ c.bits := by omega
    have hPfit : ∀ f ∈ c.P.emitted (base_index % c.fe_end),
        f.index + (c.kDimensions + c.SQUARE_NB) < 2 ^ c.bits := by
      intro f hf
      have := hP f hf
      omega
    have hRfit : ∀ f ∈ c.HalfRelativeKP.emitted
        (c.MakeIndex (base_index / c.fe_end) (base_index % c.fe_end)),
        f.index + (c.kDimensions + c.SQUARE_NB + c.P.GetDimensions) < 2 ^ c.bits := by
      intro f hf
      have := hR f hf
      omega
    have hPa := inherit_active_fit c.bits c.P (c.kDimensions + c.SQUARE_NB)
      { active := true, dimensions := c.P.GetDimensions } (base_index % c.fe_end)
      (v ++ [{ index := base_index }, { index := c.kDimensions + base_index / c.fe_end }]) rfl
      hPfit
    have hPr := (inherit_active c.bits c.P (c.kDimensions + c.SQUARE_NB)
      { active := true, dimensions := c.P.GetDimensions } (base_index % c.fe_end)
      (v ++ [{ index := base_index }, { index := c.kDimensions + base_index / c.fe_end }])
      rfl).2
    by_cases hp : base_index % c.fe_end ≥ c.fe_hand_end
    · have hRa := inherit_active_fit c.bits c.HalfRelativeKP
        (c.kDimensions + c.SQUARE_NB + c.P.GetDimensions)
        { active := true, dimensions := c.HalfRelativeKP.GetDimensions }
        (c.MakeIndex (base_index / c.fe_end) (base_index % c.fe_end))
        (v ++ [{ index := base_index }, { index := c.kDimensions + base_index / c.fe_end }] ++
          (c.P.emitted (base_index % c.fe_end)).map
            (fun f => { index := f.index + (c.kDimensions + c.SQUARE_NB) })) rfl hRfit
      simp only [HalfKP.AppendTrainingFeatures, HalfKP.kProperties, AppendBaseFeature, if_true,
        if_pos hp, Nat.mod_eq_of_lt h0, Nat.mod_eq_of_lt h1, List.append_assoc,
        List.singleton_append, hPa, hPr, Nat.mod_eq_of_lt h2] at hRa ⊢
      rw [hRa]
    · simp only [HalfKP.AppendTrainingFeatures, HalfKP.kProperties, AppendBaseFeature, if_true,
        if_neg hp, Nat.mod_eq_of_lt h0, Nat.mod_eq_of_lt h1, List.append_assoc,
        List.singleton_append, hPa]
      simp
  refine ⟨hfeat, hget, hbase, ⟨Nat.le_add_right _ _, Nat.add_lt_add_left hsq _⟩, ?_, ?_, ?_⟩
  · intro f hf
    have := hP f hf
    omega
  · intro f hf
    have := hR f hf
    rw [hget]
    omega
  · intro f hf
    rw [hfeat] at hf
    rw [hget]
    simp only [List.append_assoc, List.drop_left, List.mem_append, List.mem_cons,
      List.mem_singleton, List.mem_map, List.not_mem_nil, or_false] at hf
    rcases hf with (rfl | rfl) | ⟨g, hg, rfl⟩ | hf
    · show base_index < _; omega
    · show c.kDimensions + base_index / c.fe_end < _; omega
    · have := hP g hg
      show g.index + _ < _; omega
    · split at hf
      · obtain ⟨g, hg, rfl⟩ := List.mem_map.mp hf
        have := hR g hg
        show g.index + _ < _; omega
      · simp at hf

/-- Witness for C13: sizes as for chess, both inherited factorizers as the class template
defines them, base index 700 (square 1, piece 59) appended to a vector that
holds one feature. -/
theorem append_features_in_blocks_witness :
    (HalfKP.AppendTrainingFeatures
        { bits := 32, SQUARE_NB := 64, fe_end := 641, fe_hand_end := 1, kDimensions := 41024,
          P := Factorizer.generic 641, HalfRelativeKP := Factorizer.generic 1125,
          MakeIndex := fun sq_k p => (sq_k + p) % 1125 }
        (HalfKP.kProperties
          { bits := 32, SQUARE_NB := 64, fe_end := 641, fe_hand_end := 1, kDimensions := 41024,
            P := Factorizer.generic 641, HalfRelativeKP := Factorizer.generic 1125,
            MakeIndex := fun sq_k p => (sq_k + p) % 1125 })
        700 [{ index := 5 }]).training_features =
      [{ index := 5 }, { index := 700 }, { index := 41025 }, { index := 41147 },
       { index := 41789 }] :=
  (append_features_in_blocks
    { bits := 32, SQUARE_NB := 64, fe_end := 641, fe_hand_end := 1, kDimensions := 41024,
      P := Factorizer.generic 641, HalfRelativeKP := Factorizer.generic 1125,
      MakeIndex := fun sq_k p => (sq_k + p) % 1125 }
    700 [{ index := 5 }] (by decide) (by decide) (by decide) (by decide) (by decide)).1.trans
    (by decide)

end Features
